import Mathlib

/-!
Verification of `bibstrip.py`, a BibTeX filter that scans brace-delimited
records from a line stream, removes a configured set of fields, optionally
sorts records by label, and re-serializes them.

The embedding is shallow: lines are `String`s (as produced by Python file
iteration, i.e. each physical line keeps its trailing newline), Python's
`OrderedDict` is an association list with in-place value update, and
fallible operations (`split` unpacking, `dict[...]` lookup) return `Option`.
-/

namespace Bibstrip

/-- Python's default whitespace set for `str.strip` / `str.split`. -/
def isPyWs (c : Char) : Bool :=
  c == ' ' || c == '\t' || c == '\n' || c == '\r' || c == '\x0B' || c == '\x0C'

/-- Python `s.lstrip()`. -/
def pyLstrip (s : String) : String := ⟨s.data.dropWhile isPyWs⟩

/-- Python `s.rstrip()`. -/
def pyRstrip (s : String) : String := ⟨(s.data.reverse.dropWhile isPyWs).reverse⟩

/-- Python `s.strip()`. -/
def pyStrip (s : String) : String := pyRstrip (pyLstrip s)

/-- The characters stripped by `s.rstrip(',\n')` in the source. -/
def isCommaNl (c : Char) : Bool := c == ',' || c == '\n'

/-- Python `s.rstrip(',\n')`: remove all trailing commas and newlines. -/
def rstripCommaNl (s : String) : String := ⟨(s.data.reverse.dropWhile isCommaNl).reverse⟩

/-- Python `s.count(c)` for a single character. -/
def countChar (c : Char) (s : String) : Nat := s.data.count c

/-- `line.count('{') - line.count('}')`, the per-line brace balance. -/
def braceDelta (s : String) : Int :=
  (countChar '\x7B' s : Int) - (countChar '\x7D' s : Int)

/-- Python `s.split(c, maxsplit=1)` unpacked into two values; `none` models
the `ValueError` raised when the separator is absent. -/
def splitOnce (c : Char) (s : String) : Option (String × String) :=
  if s.data.contains c then
    some (⟨s.data.takeWhile (fun x => x != c)⟩, ⟨(s.data.dropWhile (fun x => x != c)).drop 1⟩)
  else none

/-- Python `len(s.split()) > 1`: `s` contains at least two whitespace-separated
words. -/
def multiWord (s : String) : Bool :=
  !((((s.data.dropWhile isPyWs).dropWhile (fun c => !isPyWs c)).dropWhile isPyWs).isEmpty)

/-- Python `line.startswith('@')`. -/
def startsWithAt (s : String) : Bool :=
  match s.data with
  | [] => false
  | c :: _ => c == '@'

/-- Python `not line.strip()`: the line is blank. -/
def isBlank (s : String) : Bool := (pyStrip s).data.isEmpty

/-! ## Record Scanner (`next_entry_lines`) -/

/-- The in-entry phase of the scan loop of `next_entry_lines`: each line is
appended and its brace counts added to the running depth; the loop breaks the
moment the depth reaches zero.  The `Bool` records whether the `break` was
taken (`false` means the stream ended mid-record). -/
def scanIn : List String → Int → List String → List String × List String × Bool
  | [], _, acc => (acc, [], false)
  | l :: rest, depth, acc =>
    if depth + braceDelta l == 0 then (acc ++ [l], rest, true)
    else scanIn rest (depth + braceDelta l) (acc ++ [l])

/-- `next_entry_lines`: skip lines before a record start (a line starting
with `@` seen while not inside an entry), then scan the entry.  Returns the
entry lines, the unconsumed remainder of the stream, and whether the entry
was completed (brace depth returned to zero). -/
def next_entry_lines : List String → List String × List String × Bool
  | [] => ([], [], false)
  | l :: rest =>
    if startsWithAt l then scanIn rest (braceDelta l) [l]
    else next_entry_lines rest

/-! ## Ordered field map (`collections.OrderedDict`) -/

/-- A field map: insertion-ordered key/value pairs. -/
abbrev FieldMap := List (String × String)

/-- Python `k in d`. -/
def odContains (d : FieldMap) (k : String) : Bool := d.any (fun p => p.1 == k)

/-- Python `d[k] = v` on an `OrderedDict`: update in place if the key exists
(keeping its position), else append. -/
def odInsert (d : FieldMap) (k v : String) : FieldMap :=
  if odContains d k then d.map (fun p => if p.1 == k then (p.1, v) else p)
  else d ++ [(k, v)]

/-- Python `d[k] += s`; `none` models the `KeyError` when `k` is absent. -/
def odAppendVal (d : FieldMap) (k s : String) : Option FieldMap :=
  if odContains d k then
    some (d.map (fun p => if p.1 == k then (p.1, p.2 ++ s) else p))
  else none

/-- Python `d[k]` as an `Option`. -/
def odGet (d : FieldMap) (k : String) : Option String :=
  (d.find? (fun p => p.1 == k)).map Prod.snd

/-! ## Record Decomposer (`group_entries`) -/

/-- The loop of `group_entries` over `entry_lines[1:]`, with state
`(dict, num_open_braces, skip_key, cur_key)`. -/
def groupLoop (rm : List String) :
    List String → FieldMap → Int → Bool → String → Option FieldMap
  | [], d, _, _, _ => some d
  | line :: rest, d, depth, skip, cur =>
    if isBlank line then groupLoop rm rest d depth skip cur
    else if depth == 1 then
      if depth + braceDelta line == 0 then some d
      else
        match splitOnce '=' line with
        | none => none
        | some (k0, v0) =>
          let key := pyStrip k0
          let val := rstripCommaNl (pyLstrip v0)
          if rm.contains key || multiWord key then
            groupLoop rm rest d (depth + braceDelta line) true cur
          else
            groupLoop rm rest (odInsert d key val) (depth + braceDelta line) false key
    else
      if skip then groupLoop rm rest d (depth + braceDelta line) skip cur
      else
        match odAppendVal d cur (" " ++ pyStrip line) with
        | none => none
        | some d2 => groupLoop rm rest d2 (depth + braceDelta line) skip cur

/-- `group_entries`: build the ordered field map of one entry.  The first
line is split at the first `{` into entry type and label (synthesized as the
first two entries); the remaining lines are processed by `groupLoop`.
`none` models the exceptions Python raises on malformed input. -/
def group_entries (rm : List String) (entry_lines : List String) : Option FieldMap :=
  match entry_lines with
  | [] => none
  | first :: rest =>
    match splitOnce '\x7B' first with
    | none => none
    | some (t0, l0) =>
      groupLoop rm rest
        [("entry_type", ⟨(pyStrip t0).data.drop 1⟩), ("label", rstripCommaNl (pyLstrip l0))]
        1 false ""

/-! ## Record Serializer (`dump_entry`) -/

/-- `lines[-1] = lines[-1].rstrip(',\n') + '\n'`. -/
def stripLastLine : List String → List String
  | [] => []
  | [x] => [rstripCommaNl x ++ "\n"]
  | x :: xs => x :: stripLastLine xs

/-- `dump_entry`: serialize a field map back to output lines.  `none` models
the `KeyError` when a reserved key is absent (never the case for maps built
by `group_entries`). -/
def dump_entry (d : FieldMap) : Option (List String) :=
  match odGet d "entry_type", odGet d "label" with
  | some t, some l =>
    some (stripLastLine
      (("@" ++ t ++ "\x7B" ++ l ++ ",\n") ::
        (d.filter (fun p => !(p.1 == "entry_type") && !(p.1 == "label"))).map
          (fun p => p.1 ++ " = " ++ p.2 ++ ",\n"))
      ++ ["\x7D\n\n"])
  | _, _ => none

/-! ## Sorting (`sorted(entries, key=lambda entry: entry['label'])`) -/

/-- `entry['label']` as used by the sort key (always present for maps built
by `group_entries`). -/
def labelOf (d : FieldMap) : String := (odGet d "label").getD ""

/-- Lexicographic comparison of character lists by code point, matching
Python string comparison. -/
def strLeAux : List Char → List Char → Bool
  | [], _ => true
  | _ :: _, [] => false
  | a :: as, b :: bs =>
    if a.toNat < b.toNat then true
    else if b.toNat < a.toNat then false
    else strLeAux as bs

/-- Python `s <= t` on strings. -/
def strLe (a b : String) : Bool := strLeAux a.data b.data

/-- Order of entries used by `sorted(..., key=lambda entry: entry['label'])`. -/
def entryLe (a b : FieldMap) : Bool := strLe (labelOf a) (labelOf b)

/-- Insert an entry after all existing entries with label less than or equal
to its own: the insertion step of a stable ascending sort, extensionally the
behavior of Python's stable `sorted`. -/
def sortInsert (e : FieldMap) : List FieldMap → List FieldMap
  | [] => [e]
  | x :: xs => if entryLe x e then x :: sortInsert e xs else e :: x :: xs

/-- Stable ascending sort by label (Python `sorted` with the label key). -/
def sortEntries (es : List FieldMap) : List FieldMap :=
  es.foldl (fun acc e => sortInsert e acc) []

/-! ## Pipeline driver -/

/-- The default removal set: `'abstract,file,note,url,urldate'.split(',')`
with each element stripped. -/
def defaultRemoveFields : List String := ["abstract", "file", "note", "url", "urldate"]

/-- The driver loop repeatedly calling `next_entry_lines`, fuelled; each
found record consumes at least one stream line, so `ls.length` fuel is always
enough (`scanAll_eq` below gives the natural unfolding). -/
def scanAllFuel : Nat → List String → List (List String)
  | 0, _ => []
  | fuel + 1, ls =>
    match next_entry_lines ls with
    | (rec, rest, _) => if rec.isEmpty then [] else rec :: scanAllFuel fuel rest

/-- All records of the stream, in input order. -/
def scanAll (ls : List String) : List (List String) := scanAllFuel ls.length ls

/-- `f` mapped over a list in the `Option` monad (structural version of
`List.mapM`): `none` as soon as any element fails. -/
def mapOpt {α β : Type} (f : α → Option β) : List α → Option (List β)
  | [] => some []
  | a :: as =>
    match f a, mapOpt f as with
    | some b, some bs => some (b :: bs)
    | _, _ => none

/-- The sequence of field maps the driver serializes, in emission order:
scan and decompose every record, then sort when sort mode is active. -/
def pipelineEntries (rm : List String) (sortMode : Bool) (ls : List String) :
    Option (List FieldMap) :=
  match mapOpt (group_entries rm) (scanAll ls) with
  | none => none
  | some es => some (if sortMode then sortEntries es else es)

/-- Concatenation of a list of strings (the text written by the sequence of
`writelines` calls). -/
def concatAll : List String → String
  | [] => ""
  | s :: rest => s ++ concatAll rest

/-- The full filter on a line stream: the concatenation of the serialized
records, as text.  `none` models a Python exception during the run. -/
def runLines (rm : List String) (sortMode : Bool) (ls : List String) : Option String :=
  match pipelineEntries rm sortMode ls with
  | none => none
  | some es =>
    match mapOpt dump_entry es with
    | none => none
    | some outs => some (concatAll outs.flatten)

/-- Split text into physical lines the way Python file iteration does: each
line keeps its trailing newline; a final fragment without a newline is its
own line. -/
def splitLinesAux : List Char → List Char → List String
  | [], acc => if acc.isEmpty then [] else [⟨acc.reverse⟩]
  | c :: cs, acc =>
    if c == '\n' then (⟨(c :: acc).reverse⟩ : String) :: splitLinesAux cs []
    else splitLinesAux cs (c :: acc)

/-- Split a text into physical lines (keeping newlines). -/
def splitLines (s : String) : List String := splitLinesAux s.data []

/-- The full filter on input text. -/
def runText (rm : List String) (sortMode : Bool) (t : String) : Option String :=
  runLines rm sortMode (splitLines t)

/-! ## Derived and specification-side definitions used by the claims -/

/-- Net brace balance of a sequence of lines. -/
def braceSum (ls : List String) : Int := (ls.map braceDelta).sum

/-- Total number of literal open braces in a sequence of lines. -/
def openCount (ls : List String) : Nat := (ls.map (countChar '\x7B')).sum

/-- Total number of literal close braces in a sequence of lines. -/
def closeCount (ls : List String) : Nat := (ls.map (countChar '\x7D')).sum

/-- Modelled from the spec: the serializer contract of section 4.3 with the
`rstrip` reading — body lines are the record-opening line followed by one
line per non-reserved field in map order; all trailing commas and newlines
are stripped from the last body line (which is the opening line itself when
there is no non-reserved field); then a closing brace line and a blank
separator line. -/
def serializeSpec (d : FieldMap) : Option (List String) :=
  match odGet d "entry_type", odGet d "label" with
  | some t, some l =>
    some ((fun body => (body.dropLast ++ [rstripCommaNl (body.getLastD "") ++ "\n"])
        ++ ["\x7D\n\n"])
      (("@" ++ t ++ "\x7B" ++ l ++ ",\n") ::
        (d.filter (fun p => !(p.1 == "entry_type") && !(p.1 == "label"))).map
          (fun p => p.1 ++ " = " ++ p.2 ++ ",\n")))
  | _, _ => none

/-- Strip exactly one trailing comma: replace a final `",\n"` by `"\n"` and
leave any other line unchanged — the literal reading of the claim's
comma-strip step. -/
def stripOneComma (s : String) : String :=
  match s.data.reverse with
  | '\n' :: ',' :: rest => ⟨rest.reverse ++ ['\n']⟩
  | _ => s

/-- Modelled from the spec: the serializer as literally claimed — one line
`key + " = " + value + ","` per non-reserved field, with the single trailing
comma of the last emitted line stripped. -/
def serializeClaimOnce (d : FieldMap) : Option (List String) :=
  match odGet d "entry_type", odGet d "label" with
  | some t, some l =>
    some ((fun body => (body.dropLast ++ [stripOneComma (body.getLastD "")])
        ++ ["\x7D\n\n"])
      (("@" ++ t ++ "\x7B" ++ l ++ ",\n") ::
        (d.filter (fun p => !(p.1 == "entry_type") && !(p.1 == "label"))).map
          (fun p => p.1 ++ " = " ++ p.2 ++ ",\n")))
  | _, _ => none

/-- Modelled from the spec: the sequence of candidate keys the decomposer
accepts for insertion, in source order — one per top-level (depth-one)
field line that parses and passes the removal and multi-word filters.  This
is the reference order for the claim that keys preserve first-seen order. -/
def insertedFieldKeys (rm : List String) : List String → Int → List String
  | [], _ => []
  | line :: rest, depth =>
    if isBlank line then insertedFieldKeys rm rest depth
    else if depth == 1 then
      if depth + braceDelta line == 0 then []
      else
        match splitOnce '=' line with
        | none => []
        | some (k0, _) =>
          if rm.contains (pyStrip k0) || multiWord (pyStrip k0) then
            insertedFieldKeys rm rest (depth + braceDelta line)
          else pyStrip k0 :: insertedFieldKeys rm rest (depth + braceDelta line)
    else insertedFieldKeys rm rest (depth + braceDelta line)

/-- Fold a sequence of key insertions over an ordered key list, keeping the
first occurrence of every key (an `OrderedDict`'s key order). -/
def insertKeys (ks : List String) (news : List String) : List String :=
  news.foldl (fun acc k => if acc.contains k then acc else acc ++ [k]) ks

/-- A well-behaved entry type: no whitespace, no braces (hence also no
newline). -/
def goodEntryType (t : String) : Bool :=
  t.data.all (fun c => !isPyWs c && c != '\x7B' && c != '\x7D')

/-- A well-behaved label: no surrounding whitespace, no trailing comma, no
newline, no braces. -/
def goodLabel (l : String) : Bool :=
  pyLstrip l == l && rstripCommaNl l == l && !l.data.contains '\n' &&
  !l.data.contains '\x7B' && !l.data.contains '\x7D'

/-- A well-behaved non-reserved field key: no whitespace, no `=`, no braces,
not one of the reserved keys, not in the removal set. -/
def goodKey (rm : List String) (k : String) : Bool :=
  k.data.all (fun c => !isPyWs c && c != '=' && c != '\x7B' && c != '\x7D') &&
  !(k == "entry_type") && !(k == "label") && !rm.contains k

/-- A well-behaved field value: no leading whitespace, no trailing comma or
newline, no newline anywhere, balanced braces.  Values reconstructed from a
single physical source line satisfy all but possibly the brace balance;
values joined from several lines may end with a comma and violate this. -/
def goodVal (v : String) : Bool :=
  pyLstrip v == v && rstripCommaNl v == v && !v.data.contains '\n' &&
  countChar '\x7B' v == countChar '\x7D' v

/-- All fields of a map tail are well-behaved. -/
def goodFields (rm : List String) : FieldMap → Bool
  | [] => true
  | (k, v) :: fs => goodKey rm k && goodVal v && goodFields rm fs

/-- A well-behaved field map: the two reserved entries first, in order, with
well-behaved components. -/
def goodEntry (rm : List String) (d : FieldMap) : Bool :=
  match d with
  | (k1, t) :: (k2, l) :: fs =>
    (k1 == "entry_type") && (k2 == "label") &&
      goodEntryType t && goodLabel l && goodFields rm fs
  | _ => false

/-- The field lines of a serialized entry: one line per field, comma
terminated except for the last. -/
def renderFieldLines : FieldMap → List String
  | [] => []
  | [(k, v)] => [k ++ " = " ++ v ++ "\n"]
  | (k, v) :: fs => (k ++ " = " ++ v ++ ",\n") :: renderFieldLines fs

/-- The terminator of the serialized record-opening line: the comma is
stripped when there is no non-reserved field. -/
def entrySep (fs : FieldMap) : String :=
  match fs with
  | [] => "\n"
  | _ => ",\n"

/-- The serialized output lines of a well-behaved entry. -/
def entryOutLines (t l : String) (fs : FieldMap) : List String :=
  ("@" ++ t ++ "\x7B" ++ l ++ entrySep fs) :: renderFieldLines fs ++ ["\x7D\n\n"]

/-- The physical lines of a serialized well-behaved entry, as re-read from
the output text: the final `"}\n\n"` becomes a closing line and a blank
separator line. -/
def entryPhysLines (t l : String) (fs : FieldMap) : List String :=
  ("@" ++ t ++ "\x7B" ++ l ++ entrySep fs) :: renderFieldLines fs ++ ["\x7D\n", "\n"]

/-- The raw record the scanner extracts back from a serialized well-behaved
entry (the physical lines up to and including the closing brace line). -/
def entryRecLines (t l : String) (fs : FieldMap) : List String :=
  ("@" ++ t ++ "\x7B" ++ l ++ entrySep fs) :: renderFieldLines fs ++ ["\x7D\n"]

/-- `entryOutLines` applied to the components of a field map. -/
def entryOutOf (d : FieldMap) : List String :=
  match d with
  | (_, t) :: (_, l) :: fs => entryOutLines t l fs
  | _ => []

/-- `entryPhysLines` applied to the components of a field map. -/
def entryPhysOf (d : FieldMap) : List String :=
  match d with
  | (_, t) :: (_, l) :: fs => entryPhysLines t l fs
  | _ => []

/-- `entryRecLines` applied to the components of a field map. -/
def entryRecOf (d : FieldMap) : List String :=
  match d with
  | (_, t) :: (_, l) :: fs => entryRecLines t l fs
  | _ => []

/-! ## General helper lemmas -/

theorem dropWhile_append_of_all {p : Char → Bool} {as : List Char} (bs : List Char)
    (h : ∀ c ∈ as, p c = true) : (as ++ bs).dropWhile p = bs.dropWhile p := by
  induction as with
  | nil => rfl
  | cons a as ih =>
    have ha : p a = true := h a (by simp)
    simp only [List.cons_append, List.dropWhile_cons, ha, if_true]
    exact ih fun c hc => h c (by simp [hc])

theorem dropWhile_eq_self_of_all {p : Char → Bool} {l : List Char}
    (h : ∀ c ∈ l, p c = false) : l.dropWhile p = l := by
  cases l with
  | nil => rfl
  | cons a as => simp [List.dropWhile_cons, h a (by simp)]

theorem mem_dropWhile_of_not {p : Char → Bool} {l : List Char} {c : Char}
    (hc : c ∈ l) (hw : p c = false) : ∃ x ∈ l.dropWhile p, p x = false := by
  induction l with
  | nil => cases hc
  | cons a as ih =>
    by_cases ha : p a = true
    · have hcas : c ∈ as := by
        rcases List.mem_cons.mp hc with h | h
        · subst h; rw [hw] at ha; cases ha
        · exact h
      simpa [List.dropWhile_cons, ha] using ih hcas
    · refine ⟨c, ?_, hw⟩
      simp only [Bool.not_eq_true] at ha
      simpa [List.dropWhile_cons, ha] using hc

theorem takeWhile_ne_concat {c : Char} {xs : List Char} (ys : List Char)
    (h : ∀ x ∈ xs, x ≠ c) :
    (xs ++ c :: ys).takeWhile (fun x => x != c) = xs := by
  induction xs with
  | nil => simp [List.takeWhile_cons]
  | cons a as ih =>
    have ha : (a != c) = true := by simp [h a (by simp)]
    simp only [List.cons_append, List.takeWhile_cons, ha, if_true]
    rw [ih fun x hx => h x (by simp [hx])]

theorem dropWhile_ne_concat {c : Char} {xs : List Char} (ys : List Char)
    (h : ∀ x ∈ xs, x ≠ c) :
    (xs ++ c :: ys).dropWhile (fun x => x != c) = c :: ys := by
  induction xs with
  | nil => simp [List.dropWhile_cons]
  | cons a as ih =>
    have ha : (a != c) = true := by simp [h a (by simp)]
    simp only [List.cons_append, List.dropWhile_cons, ha, if_true]
    exact ih fun x hx => h x (by simp [hx])

theorem splitOnce_concat {c : Char} {xs : List Char} (ys : List Char)
    (h : ∀ x ∈ xs, x ≠ c) :
    splitOnce c ⟨xs ++ c :: ys⟩ = some (⟨xs⟩, ⟨ys⟩) := by
  have hc : (xs ++ c :: ys).contains c = true := by
    simp [List.contains_eq_any_beq]
  rw [splitOnce]
  simp only [hc, if_true]
  rw [takeWhile_ne_concat ys h, dropWhile_ne_concat ys h]
  simp

theorem countChar_append (c : Char) (a b : String) :
    countChar c (a ++ b) = countChar c a + countChar c b := by
  simp [countChar, String.data_append, List.count_append]

theorem braceDelta_append (a b : String) :
    braceDelta (a ++ b) = braceDelta a + braceDelta b := by
  simp only [braceDelta, countChar_append]
  push_cast
  ring

theorem braceDelta_eq_zero {s : String}
    (h : countChar '\x7B' s = countChar '\x7D' s) : braceDelta s = 0 := by
  simp [braceDelta, h]

theorem pyStrip_of_all_not {s : String} (h : ∀ c ∈ s.data, isPyWs c = false) :
    pyStrip s = s := by
  cases s with
  | mk l =>
    have h1 : l.dropWhile isPyWs = l := dropWhile_eq_self_of_all h
    have h2 : l.reverse.dropWhile isPyWs = l.reverse :=
      dropWhile_eq_self_of_all fun c hc => h c (List.mem_reverse.mp hc)
    simp [pyStrip, pyLstrip, pyRstrip, h1, h2]

theorem pyRstrip_append_of_all {s t : String} (h : ∀ c ∈ t.data, isPyWs c = true) :
    pyRstrip (s ++ t) = pyRstrip s := by
  cases s with
  | mk ls =>
    cases t with
    | mk lt =>
      have : (ls ++ lt).reverse.dropWhile isPyWs = ls.reverse.dropWhile isPyWs := by
        rw [List.reverse_append]
        exact dropWhile_append_of_all _ fun c hc => h c (List.mem_reverse.mp hc)
      simp only [pyRstrip, String.data_append]
      rw [this]

theorem rstripCommaNl_append_of_all {s t : String} (h : ∀ c ∈ t.data, isCommaNl c = true) :
    rstripCommaNl (s ++ t) = rstripCommaNl s := by
  cases s with
  | mk ls =>
    cases t with
    | mk lt =>
      have : (ls ++ lt).reverse.dropWhile isCommaNl = ls.reverse.dropWhile isCommaNl := by
        rw [List.reverse_append]
        exact dropWhile_append_of_all _ fun c hc => h c (List.mem_reverse.mp hc)
      simp only [rstripCommaNl, String.data_append]
      rw [this]

theorem isBlank_false {s : String} {c : Char} (hc : c ∈ s.data) (hw : isPyWs c = false) :
    isBlank s = false := by
  obtain ⟨x, hx, hpx⟩ := mem_dropWhile_of_not hc hw
  obtain ⟨y, hy, _⟩ := mem_dropWhile_of_not (List.mem_reverse.mpr hx) hpx
  have hmem : y ∈ (pyStrip s).data := by
    simp only [pyStrip, pyLstrip, pyRstrip]
    exact List.mem_reverse.mpr hy
  simp [isBlank, List.isEmpty_eq_false_iff_exists_mem.mpr ⟨y, hmem⟩]

theorem multiWord_of_all_not {k : String} (h : ∀ c ∈ k.data, isPyWs c = false) :
    multiWord k = false := by
  have h1 : k.data.dropWhile isPyWs = k.data := dropWhile_eq_self_of_all h
  have h2 : k.data.dropWhile (fun c => !isPyWs c) = [] :=
    List.dropWhile_eq_nil_iff.mpr fun c hc => by simp [h c hc]
  simp [multiWord, h1, h2]

/-! ## Field map key lemmas -/

theorem mem_odInsert_keys {d : FieldMap} {k v : String} {p : String × String}
    (hp : p ∈ odInsert d k v) : p.1 = k ∨ ∃ q ∈ d, p.1 = q.1 := by
  unfold odInsert at hp
  split at hp
  · obtain ⟨q, hq, hfq⟩ := List.mem_map.mp hp
    right
    refine ⟨q, hq, ?_⟩
    by_cases h : (q.1 == k) = true <;> simp [h] at hfq <;> simp [← hfq]
  · rcases List.mem_append.mp hp with h | h
    · exact Or.inr ⟨p, h, rfl⟩
    · left
      simp only [List.mem_singleton] at h
      simp [h]

theorem mem_odAppendVal_keys {d d2 : FieldMap} {k s : String} {p : String × String}
    (h : odAppendVal d k s = some d2) (hp : p ∈ d2) : ∃ q ∈ d, p.1 = q.1 := by
  unfold odAppendVal at h
  split at h
  · injection h with h
    subst h
    obtain ⟨q, hq, hfq⟩ := List.mem_map.mp hp
    refine ⟨q, hq, ?_⟩
    by_cases hqk : (q.1 == k) = true <;> simp [hqk] at hfq <;> simp [← hfq]
  · cases h

/-! ## C1: removal completeness -/

theorem groupLoop_keys_good (rm : List String) (ls : List String) :
    ∀ d depth skip cur d2, groupLoop rm ls d depth skip cur = some d2 →
    (∀ p ∈ d, p.1 = "entry_type" ∨ p.1 = "label" ∨
      (rm.contains p.1 = false ∧ multiWord p.1 = false)) →
    ∀ p ∈ d2, p.1 = "entry_type" ∨ p.1 = "label" ∨
      (rm.contains p.1 = false ∧ multiWord p.1 = false) := by
  induction ls with
  | nil =>
    intro d depth skip cur d2 h hd
    rw [groupLoop] at h
    injection h with h
    subst h
    exact hd
  | cons line rest ih =>
    intro d depth skip cur d2 h hd
    rw [groupLoop] at h
    by_cases hb : isBlank line = true
    · rw [if_pos hb] at h
      exact ih _ _ _ _ _ h hd
    · rw [if_neg hb] at h
      by_cases h1 : (depth == 1) = true
      · rw [if_pos h1] at h
        by_cases h0 : (depth + braceDelta line == 0) = true
        · rw [if_pos h0] at h
          injection h with h
          subst h
          exact hd
        · rw [if_neg h0] at h
          cases hsp : splitOnce '=' line with
          | none => rw [hsp] at h; cases h
          | some kv =>
            obtain ⟨k0, v0⟩ := kv
            rw [hsp] at h
            simp only at h
            by_cases hrm : (rm.contains (pyStrip k0) || multiWord (pyStrip k0)) = true
            · rw [if_pos hrm] at h
              exact ih _ _ _ _ _ h hd
            · rw [if_neg hrm] at h
              refine ih _ _ _ _ _ h ?_
              intro p hp
              rcases mem_odInsert_keys hp with hk | ⟨q, hq, hpq⟩
              · right; right
                rw [hk]
                simpa [Bool.or_eq_true] using hrm
              · rw [hpq]
                exact hd q hq
      · rw [if_neg h1] at h
        by_cases hsk : skip = true
        · rw [if_pos hsk] at h
          exact ih _ _ _ _ _ h hd
        · rw [if_neg hsk] at h
          cases hap : odAppendVal d cur (" " ++ pyStrip line) with
          | none => rw [hap] at h; cases h
          | some d3 =>
            rw [hap] at h
            refine ih _ _ _ _ _ h ?_
            intro p hp
            obtain ⟨q, hq, hpq⟩ := mem_odAppendVal_keys hap hp
            rw [hpq]
            exact hd q hq

/-- C1 (amended): every key of a field map produced by the decomposer is
either one of the two synthesized reserved keys `entry_type` / `label`, or
a key that is not in the removal set and contains no internal whitespace;
hence no removed field and no multi-word key is ever inserted as a field. -/
theorem C1_removal_amended (rm : List String) (rec : List String) (d : FieldMap)
    (h : group_entries rm rec = some d) :
    ∀ p ∈ d, p.1 ≠ "entry_type" → p.1 ≠ "label" →
      rm.contains p.1 = false ∧ multiWord p.1 = false := by
  intro p hp hne hnl
  cases rec with
  | nil => cases h
  | cons first rest =>
    rw [group_entries] at h
    cases hsp : splitOnce '\x7B' first with
    | none => rw [hsp] at h; cases h
    | some tl =>
      obtain ⟨t0, l0⟩ := tl
      rw [hsp] at h
      simp only at h
      have := groupLoop_keys_good rm rest _ _ _ _ _ h
        (by intro q hq; simp only [List.mem_cons] at hq
            rcases hq with hq | hq | hq
            · left; rw [hq]
            · right; left; rw [hq]
            · cases hq)
        p hp
      rcases this with h1 | h1 | h1
      · exact absurd h1 hne
      · exact absurd h1 hnl
      · exact h1

/-- C1 witness: a concrete decomposition where the amended statement applies
to the retained field `author`. -/
theorem C1_removal_amended_witness :
    defaultRemoveFields.contains "author" = false ∧ multiWord "author" = false :=
  C1_removal_amended defaultRemoveFields
    ["@article\x7Bdoe2020,\n", "  author = \x7BDoe\x7D,\n", "  url = \x7Bhttp://x\x7D,\n", "\x7D\n"]
    [("entry_type", "article"), ("label", "doe2020"), ("author", "\x7BDoe\x7D")]
    (by decide) ("author", "\x7BDoe\x7D") (by decide) (by decide) (by decide)

/-- C1 counterexample: with the configured removal set `["label"]`, the
decomposer still produces a map containing the key `label` (the synthesized
reserved entry), so a configured field name does appear as a key. -/
theorem C1_counterexample :
    group_entries ["label"] ["@a\x7Bb,\n", "\x7D\n"]
      = some [("entry_type", "a"), ("label", "b")] ∧
    "label" ∈ ["label"] ∧
    odContains [("entry_type", "a"), ("label", "b")] "label" = true :=
  ⟨by decide, by decide, by decide⟩

/-! ## C4: the concrete scenario -/

/-- C4 counterexample: on the scenario input the program's output is not the
text the claim states — the retained field line is emitted without its
original two-space indentation. -/
theorem C4_counterexample :
    runText defaultRemoveFields true
      "@article\x7Bdoe2020,\n  author = \x7BDoe\x7D,\n  url = \x7Bhttp://x\x7D,\n\x7D\n"
      ≠ some "@article\x7Bdoe2020,\n  author = \x7BDoe\x7D\n\x7D\n\n" := by decide

/-- C4 (amended): on the scenario input with the default removal set, the
output is `@article{doe2020,\nauthor = {Doe}\n}\n\n`: the url field is
absent, the trailing comma is removed from the last retained field line,
and the field key is emitted flush-left (source indentation is not kept,
since the key is whitespace-stripped during decomposition). -/
theorem C4_scenario_amended :
    runText defaultRemoveFields true
      "@article\x7Bdoe2020,\n  author = \x7BDoe\x7D,\n  url = \x7Bhttp://x\x7D,\n\x7D\n"
      = some "@article\x7Bdoe2020,\nauthor = \x7BDoe\x7D\n\x7D\n\n" := by decide

/-! ## C8: comment, preamble and string records -/

/-- C8 counterexample: an input consisting solely of a comment record does
not produce empty output — the record is scanned, decomposed and re-emitted
as a first-class record. -/
theorem C8_counterexample :
    runText defaultRemoveFields true "@comment\x7Bx,\n a = b\n\x7D\n"
      = some "@comment\x7Bx,\na = b\n\x7D\n\n" ∧
    runText defaultRemoveFields true "@comment\x7Bx,\n a = b\n\x7D\n" ≠ some "" :=
  ⟨by decide, by decide⟩

/-- C8 (amended): records whose type marker is `comment`, `preamble` or
`string` are not skipped: they are handled exactly like ordinary records
and appear in the output with their type. -/
theorem C8_amended :
    runText defaultRemoveFields true "@comment\x7Bx,\n a = b\n\x7D\n"
      = some "@comment\x7Bx,\na = b\n\x7D\n\n" ∧
    runText defaultRemoveFields true "@preamble\x7Bx,\n a = b\n\x7D\n"
      = some "@preamble\x7Bx,\na = b\n\x7D\n\n" ∧
    runText defaultRemoveFields true "@string\x7Bx,\n a = b\n\x7D\n"
      = some "@string\x7Bx,\na = b\n\x7D\n\n" :=
  ⟨by decide, by decide, by decide⟩

/-! ## C7: the serializer format -/

theorem stripLastLine_eq (xs : List String) (hx : xs ≠ []) :
    stripLastLine xs = xs.dropLast ++ [rstripCommaNl (xs.getLastD "") ++ "\n"] := by
  induction xs with
  | nil => cases hx rfl
  | cons a as ih =>
    cases as with
    | nil => simp [stripLastLine]
    | cons b bs =>
      have hstep : stripLastLine (a :: b :: bs) = a :: stripLastLine (b :: bs) := rfl
      rw [hstep, ih (by simp)]
      simp

/-- C7 counterexample: on the field map with value `"x,"`, the code's
serializer strips both trailing commas from the last field line, whereas the
claimed format (value followed by a single comma, with that one comma
stripped) keeps the value's own comma. -/
theorem C7_counterexample :
    dump_entry [("entry_type", "a"), ("label", "b"), ("k", "x,")]
      ≠ serializeClaimOnce [("entry_type", "a"), ("label", "b"), ("k", "x,")] := by decide

/-- C7 (amended): for every field map, the serializer output is the opening
line `@ + entry_type + { + label + ,`, one line `key + " = " + value + ","`
per non-reserved field in map order, with all trailing commas and newlines
stripped from the last body line and a newline appended (applied to the
opening line itself when there is no non-reserved field), then a closing
brace line and a blank separator. -/
theorem C7_serializer_amended (d : FieldMap) : dump_entry d = serializeSpec d := by
  rw [dump_entry, serializeSpec]
  cases odGet d "entry_type" with
  | none => rfl
  | some t =>
    cases odGet d "label" with
    | none => rfl
    | some l =>
      simp only
      rw [stripLastLine_eq _ (by simp)]

/-! ## C3: the scanner termination invariant -/

theorem braceSum_nil : braceSum [] = 0 := rfl

theorem braceSum_append (a b : List String) : braceSum (a ++ b) = braceSum a + braceSum b := by
  simp [braceSum]

theorem braceSum_singleton (l : String) : braceSum [l] = braceDelta l := by
  simp [braceSum]

theorem braceSum_eq_counts (ls : List String) :
    braceSum ls = (openCount ls : Int) - (closeCount ls : Int) := by
  induction ls with
  | nil => simp [braceSum, openCount, closeCount]
  | cons a as ih =>
    have hs : braceSum (a :: as) = braceDelta a + braceSum as := by simp [braceSum]
    have h1 : openCount (a :: as) = countChar '\x7B' a + openCount as := by simp [openCount]
    have h2 : closeCount (a :: as) = countChar '\x7D' a + closeCount as := by simp [closeCount]
    rw [hs, ih, braceDelta, h1, h2]
    push_cast
    ring

theorem scanIn_spec (ls : List String) :
    ∀ depth acc rec rest, scanIn ls depth acc = (rec, rest, true) →
    acc ≠ [] →
    depth = braceSum acc →
    (∀ k, 2 ≤ k → k ≤ acc.length → braceSum (acc.take k) ≠ 0) →
    2 ≤ rec.length ∧ braceSum rec = 0 ∧
      ∀ k, 2 ≤ k → k < rec.length → braceSum (rec.take k) ≠ 0 := by
  induction ls with
  | nil =>
    intro depth acc rec rest h
    rw [scanIn] at h
    simp at h
  | cons l ls ih =>
    intro depth acc rec rest h hne hdep hpre
    rw [scanIn] at h
    by_cases h0 : (depth + braceDelta l == 0) = true
    · rw [if_pos h0] at h
      have hz : depth + braceDelta l = 0 := beq_iff_eq.mp h0
      simp only [Prod.ext_iff] at h
      obtain ⟨h1, h2, -⟩ := h
      subst h1
      have hlen : 1 ≤ acc.length := by
        cases acc with
        | nil => cases hne rfl
        | cons x xs => simp
      refine ⟨by simp; omega, ?_, ?_⟩
      · rw [braceSum_append, braceSum_singleton, ← hdep]
        exact hz
      · intro k h2 hk
        simp only [List.length_append, List.length_singleton] at hk
        have hk2 : k ≤ acc.length := by omega
        rw [List.take_append_of_le_length hk2]
        exact hpre k h2 hk2
    · rw [if_neg h0] at h
      refine ih _ _ _ _ h (by simp) ?_ ?_
      · rw [braceSum_append, braceSum_singleton, ← hdep]
      · intro k h2 hk
        simp only [List.length_append, List.length_singleton] at hk
        by_cases hcase : k ≤ acc.length
        · rw [List.take_append_of_le_length hcase]
          exact hpre k h2 hcase
        · have : k = acc.length + 1 := by omega
          subst this
          rw [List.take_of_length_le (by simp)]
          rw [braceSum_append, braceSum_singleton, ← hdep]
          intro hcontra
          exact absurd (beq_iff_eq.mpr hcontra) (by simpa using h0)

theorem next_entry_spec (ls : List String) :
    ∀ rec rest, next_entry_lines ls = (rec, rest, true) →
    2 ≤ rec.length ∧ braceSum rec = 0 ∧
      ∀ k, 2 ≤ k → k < rec.length → braceSum (rec.take k) ≠ 0 := by
  induction ls with
  | nil =>
    intro rec rest h
    rw [next_entry_lines] at h
    simp at h
  | cons l ls ih =>
    intro rec rest h
    rw [next_entry_lines] at h
    by_cases hA : startsWithAt l = true
    · rw [if_pos hA] at h
      refine scanIn_spec ls _ _ _ _ h (by simp) (braceSum_singleton l).symm ?_
      intro k h2 hk
      simp only [List.length_singleton] at hk
      omega
    · rw [if_neg hA] at h
      exact ih _ _ h

/-- C3 counterexample: the record-start line `@a{b}` already has brace
balance zero, yet the scanner does not stop there — the depth check only
runs on lines after the start line, so the returned record has two lines,
not the single line the claim's "the instant the depth returns to zero
(starting at the record-start line's own counts)" predicts. -/
theorem C3_counterexample :
    braceDelta "@a\x7Bb\x7D\n" = 0 ∧
    next_entry_lines ["@a\x7Bb\x7D\n", "x\n"] = (["@a\x7Bb\x7D\n", "x\n"], [], true) ∧
    (["@a\x7Bb\x7D\n", "x\n"] : List String) ≠ ["@a\x7Bb\x7D\n"] :=
  ⟨by decide, by decide, by decide⟩

/-- C3 (amended): the scanner stops the instant the running brace depth
returns to zero on a line after the record-start line (a start line whose
own balance is already zero does not end the record).  Hence whenever a
record completes (the stream does not end mid-record), the returned raw
record has at least two lines, its total brace-open count equals its
brace-close count, and no proper prefix of two or more lines has zero
running depth — i.e. no line follows the balancing line. -/
theorem C3_scanner_amended (ls rec rest : List String)
    (h : next_entry_lines ls = (rec, rest, true)) :
    2 ≤ rec.length ∧ openCount rec = closeCount rec ∧
      (∀ k, 2 ≤ k → k < rec.length → braceSum (rec.take k) ≠ 0) := by
  obtain ⟨h1, h2, h3⟩ := next_entry_spec ls rec rest h
  refine ⟨h1, ?_, h3⟩
  have := braceSum_eq_counts rec
  rw [h2] at this
  omega

/-- C3 witness: the amended statement applied to a concretely scanned
two-line record. -/
theorem C3_scanner_amended_witness :
    2 ≤ (["@a\x7Bb,\n", "\x7D\n"] : List String).length ∧
    openCount ["@a\x7Bb,\n", "\x7D\n"] = closeCount ["@a\x7Bb,\n", "\x7D\n"] ∧
    (∀ k, 2 ≤ k → k < (["@a\x7Bb,\n", "\x7D\n"] : List String).length →
      braceSum ((["@a\x7Bb,\n", "\x7D\n"] : List String).take k) ≠ 0) :=
  C3_scanner_amended ["@a\x7Bb,\n", "\x7D\n"] ["@a\x7Bb,\n", "\x7D\n"] [] (by decide)

/-! ## C9: the field map key invariant -/

theorem odInsert_keys (d : FieldMap) (k v : String) :
    (odInsert d k v).map Prod.fst =
      if odContains d k then d.map Prod.fst else d.map Prod.fst ++ [k] := by
  unfold odInsert
  by_cases h : odContains d k = true
  · rw [if_pos h, if_pos h, List.map_map]
    congr 1
    funext p
    simp only [Function.comp_apply]
    split <;> rfl
  · rw [if_neg h, if_neg h]
    simp

theorem odContains_eq (d : FieldMap) (k : String) :
    odContains d k = (d.map Prod.fst).contains k := by
  induction d with
  | nil => rfl
  | cons p ps ih =>
    have h1 : odContains (p :: ps) k = ((p.1 == k) || odContains ps k) := rfl
    rw [h1, ih]
    simp only [List.map_cons, List.contains_cons]
    by_cases hp : p.1 = k
    · simp [hp]
    · have e1 : (p.1 == k) = false := by simp [hp]
      have e2 : (k == p.1) = false := by
        simp only [beq_eq_false_iff_ne, ne_eq]
        intro hk
        exact hp hk.symm
      rw [e1, e2]

theorem odAppendVal_keys {d d2 : FieldMap} {k s : String}
    (h : odAppendVal d k s = some d2) : d2.map Prod.fst = d.map Prod.fst := by
  unfold odAppendVal at h
  split at h
  · injection h with h
    subst h
    rw [List.map_map]
    congr 1
    funext p
    simp only [Function.comp_apply]
    split <;> rfl
  · cases h

theorem insertKeys_nil (ks : List String) : insertKeys ks [] = ks := rfl

theorem insertKeys_cons (ks : List String) (k : String) (news : List String) :
    insertKeys ks (k :: news) = insertKeys (if ks.contains k then ks else ks ++ [k]) news := rfl

theorem insertKeys_nodup (news : List String) :
    ∀ ks : List String, ks.Nodup → (insertKeys ks news).Nodup := by
  induction news with
  | nil => intro ks h; exact h
  | cons k news ih =>
    intro ks h
    rw [insertKeys_cons]
    by_cases hc : ks.contains k = true
    · rw [if_pos hc]; exact ih ks h
    · rw [if_neg hc]
      refine ih _ ?_
      have hnm : k ∉ ks := by simpa [List.contains_eq_any_beq] using hc
      simp [List.nodup_append, h, hnm]

theorem insertKeys_prefix (news : List String) :
    ∀ ks : List String, ∃ ext, insertKeys ks news = ks ++ ext := by
  induction news with
  | nil => intro ks; exact ⟨[], by simp [insertKeys_nil]⟩
  | cons k news ih =>
    intro ks
    rw [insertKeys_cons]
    by_cases hc : ks.contains k = true
    · rw [if_pos hc]; exact ih ks
    · rw [if_neg hc]
      obtain ⟨ext, hext⟩ := ih (ks ++ [k])
      exact ⟨[k] ++ ext, by rw [hext, List.append_assoc]⟩

theorem groupLoop_keys (rm : List String) (ls : List String) :
    ∀ d depth skip cur d2, groupLoop rm ls d depth skip cur = some d2 →
    d2.map Prod.fst = insertKeys (d.map Prod.fst) (insertedFieldKeys rm ls depth) := by
  induction ls with
  | nil =>
    intro d depth skip cur d2 h
    rw [groupLoop] at h
    injection h with h
    subst h
    rw [insertedFieldKeys, insertKeys_nil]
  | cons line rest ih =>
    intro d depth skip cur d2 h
    rw [groupLoop] at h
    rw [insertedFieldKeys]
    by_cases hb : isBlank line = true
    · rw [if_pos hb] at h ⊢
      exact ih _ _ _ _ _ h
    · rw [if_neg hb] at h ⊢
      by_cases h1 : (depth == 1) = true
      · rw [if_pos h1] at h ⊢
        by_cases h0 : (depth + braceDelta line == 0) = true
        · rw [if_pos h0] at h ⊢
          injection h with h
          subst h
          rw [insertKeys_nil]
        · rw [if_neg h0] at h ⊢
          cases hsp : splitOnce '=' line with
          | none => rw [hsp] at h; cases h
          | some kv =>
            obtain ⟨k0, v0⟩ := kv
            rw [hsp] at h
            simp only at h ⊢
            by_cases hrm : (rm.contains (pyStrip k0) || multiWord (pyStrip k0)) = true
            · rw [if_pos hrm] at h ⊢
              exact ih _ _ _ _ _ h
            · rw [if_neg hrm] at h ⊢
              rw [insertKeys_cons, ← odContains_eq]
              have := ih _ _ _ _ _ h
              rw [this, odInsert_keys]
      · rw [if_neg h1] at h ⊢
        by_cases hsk : skip = true
        · rw [if_pos hsk] at h
          exact ih _ _ _ _ _ h
        · rw [if_neg hsk] at h
          cases hap : odAppendVal d cur (" " ++ pyStrip line) with
          | none => rw [hap] at h; cases h
          | some d3 =>
            rw [hap] at h
            rw [← odAppendVal_keys hap]
            exact ih _ _ _ _ _ h

/-- C9: every field map the decomposer produces has key list equal to the
first-seen fold of the two synthesized reserved keys followed by the
accepted candidate keys in source order; consequently `entry_type` and
`label` are present as the first two keys in that order, no key appears
twice, and all other keys preserve first-seen source order. -/
theorem C9_fieldmap_invariant (rm : List String) (first : String) (rest : List String)
    (d : FieldMap) (h : group_entries rm (first :: rest) = some d) :
    d.map Prod.fst = insertKeys ["entry_type", "label"] (insertedFieldKeys rm rest 1) ∧
    (d.map Prod.fst).Nodup ∧
    (d.map Prod.fst).take 2 = ["entry_type", "label"] := by
  rw [group_entries] at h
  cases hsp : splitOnce '\x7B' first with
  | none => rw [hsp] at h; cases h
  | some tl =>
    obtain ⟨t0, l0⟩ := tl
    rw [hsp] at h
    simp only at h
    have hk := groupLoop_keys rm rest _ _ _ _ _ h
    have hd0 : ([("entry_type", (⟨(pyStrip t0).data.drop 1⟩ : String)),
        ("label", rstripCommaNl (pyLstrip l0))].map Prod.fst) = ["entry_type", "label"] := rfl
    rw [hd0] at hk
    refine ⟨hk, ?_, ?_⟩
    · rw [hk]
      exact insertKeys_nodup _ _ (by decide)
    · rw [hk]
      obtain ⟨ext, hext⟩ := insertKeys_prefix (insertedFieldKeys rm rest 1) ["entry_type", "label"]
      rw [hext]
      rfl

/-- C9 witness: the invariant applied to a concretely decomposed record. -/
theorem C9_fieldmap_invariant_witness :
    ([("entry_type", "article"), ("label", "doe2020"), ("author", "\x7BDoe\x7D")].map Prod.fst
      = insertKeys ["entry_type", "label"]
          (insertedFieldKeys defaultRemoveFields
            ["  author = \x7BDoe\x7D,\n", "  url = \x7Bhttp://x\x7D,\n", "\x7D\n"] 1)) ∧
    (([("entry_type", "article"), ("label", "doe2020"),
        ("author", "\x7BDoe\x7D")].map Prod.fst).Nodup) ∧
    (([("entry_type", "article"), ("label", "doe2020"),
        ("author", "\x7BDoe\x7D")].map Prod.fst).take 2 = ["entry_type", "label"]) :=
  C9_fieldmap_invariant defaultRemoveFields "@article\x7Bdoe2020,\n"
    ["  author = \x7BDoe\x7D,\n", "  url = \x7Bhttp://x\x7D,\n", "\x7D\n"]
    [("entry_type", "article"), ("label", "doe2020"), ("author", "\x7BDoe\x7D")]
    (by decide)

/-! ## C2: sorting -/

theorem strLeAux_refl (a : List Char) : strLeAux a a = true := by
  induction a with
  | nil => rfl
  | cons x xs ih =>
    rw [strLeAux]
    simp only [lt_irrefl, if_false]
    exact ih

theorem strLeAux_total (a : List Char) : ∀ b, strLeAux a b = true ∨ strLeAux b a = true := by
  induction a with
  | nil => intro b; left; rfl
  | cons x xs ih =>
    intro b
    cases b with
    | nil => right; rfl
    | cons y ys =>
      rw [strLeAux, strLeAux]
      by_cases h1 : x.toNat < y.toNat
      · left; rw [if_pos h1]
      · by_cases h2 : y.toNat < x.toNat
        · right; rw [if_pos h2]
        · rw [if_neg h1, if_neg h2, if_neg h2, if_neg h1]
          exact ih ys

theorem strLeAux_trans : ∀ a b c : List Char,
    strLeAux a b = true → strLeAux b c = true → strLeAux a c = true := by
  intro a
  induction a with
  | nil => intro b c _ _; rfl
  | cons x xs ih =>
    intro b c hab hbc
    cases b with
    | nil => rw [strLeAux] at hab; cases hab
    | cons y ys =>
      cases c with
      | nil => rw [strLeAux] at hbc; cases hbc
      | cons z zs =>
        rw [strLeAux] at hab hbc ⊢
        by_cases h1 : x.toNat < y.toNat
        · rw [if_pos h1] at hab
          by_cases h2 : y.toNat < z.toNat
          · rw [if_pos (show x.toNat < z.toNat by omega)]
          · rw [if_neg h2] at hbc
            by_cases h3 : z.toNat < y.toNat
            · rw [if_pos h3] at hbc; cases hbc
            · rw [if_pos (show x.toNat < z.toNat by omega)]
        · rw [if_neg h1] at hab
          by_cases h4 : y.toNat < x.toNat
          · rw [if_pos h4] at hab; cases hab
          · rw [if_neg h4] at hab
            by_cases h2 : y.toNat < z.toNat
            · rw [if_pos (show x.toNat < z.toNat by omega)]
            · rw [if_neg h2] at hbc
              by_cases h3 : z.toNat < y.toNat
              · rw [if_pos h3] at hbc; cases hbc
              · rw [if_neg h3] at hbc
                rw [if_neg (show ¬x.toNat < z.toNat by omega),
                  if_neg (show ¬z.toNat < x.toNat by omega)]
                exact ih ys zs hab hbc

theorem entryLe_refl_of_label {a b : FieldMap} (h : labelOf a = labelOf b) :
    entryLe a b = true := by
  rw [entryLe, h, strLe]
  exact strLeAux_refl _

theorem entryLe_total (a b : FieldMap) : entryLe a b = true ∨ entryLe b a = true :=
  strLeAux_total (labelOf a).data (labelOf b).data

theorem entryLe_trans {a b c : FieldMap}
    (hab : entryLe a b = true) (hbc : entryLe b c = true) : entryLe a c = true :=
  strLeAux_trans _ _ _ hab hbc

theorem mem_sortInsert {e x : FieldMap} {acc : List FieldMap}
    (h : x ∈ sortInsert e acc) : x = e ∨ x ∈ acc := by
  induction acc with
  | nil => simpa [sortInsert] using h
  | cons a as ih =>
    rw [sortInsert] at h
    split at h
    · rcases List.mem_cons.mp h with h | h
      · right; simp [h]
      · rcases ih h with h | h
        · exact Or.inl h
        · right; simp [h]
    · rcases List.mem_cons.mp h with h | h
      · exact Or.inl h
      · exact Or.inr h

theorem sortInsert_pairwise (e : FieldMap) (acc : List FieldMap)
    (h : acc.Pairwise (fun a b => entryLe a b = true)) :
    (sortInsert e acc).Pairwise (fun a b => entryLe a b = true) := by
  induction acc with
  | nil => simp [sortInsert]
  | cons a as ih =>
    rw [sortInsert]
    rcases List.pairwise_cons.mp h with ⟨ha, htail⟩
    by_cases hle : entryLe a e = true
    · rw [if_pos hle]
      refine List.pairwise_cons.mpr ⟨?_, ih htail⟩
      intro y hy
      rcases mem_sortInsert hy with rfl | hy
      · exact hle
      · exact ha y hy
    · rw [if_neg hle]
      refine List.pairwise_cons.mpr ⟨?_, h⟩
      intro y hy
      have hea : entryLe e a = true := by
        rcases entryLe_total a e with h' | h'
        · exact absurd h' hle
        · exact h'
      rcases List.mem_cons.mp hy with rfl | hy
      · exact hea
      · exact entryLe_trans hea (ha y hy)

theorem filter_sortInsert (l0 : String) (e : FieldMap) (acc : List FieldMap)
    (h : acc.Pairwise (fun a b => entryLe a b = true)) :
    (sortInsert e acc).filter (fun x => labelOf x == l0)
      = acc.filter (fun x => labelOf x == l0)
        ++ if (labelOf e == l0) = true then [e] else [] := by
  induction acc with
  | nil =>
    rw [sortInsert]
    simp [List.filter_cons]
  | cons a as ih =>
    rcases List.pairwise_cons.mp h with ⟨ha, htail⟩
    rw [sortInsert]
    by_cases hle : entryLe a e = true
    · rw [if_pos hle, List.filter_cons, List.filter_cons, ih htail]
      split <;> simp
    · rw [if_neg hle, List.filter_cons]
      by_cases he : (labelOf e == l0) = true
      · rw [if_pos he]
        have hnil : (a :: as).filter (fun x => labelOf x == l0) = [] := by
          rw [List.filter_eq_nil_iff]
          intro y hy hmy
          have hye : labelOf y = labelOf e := by
            rw [beq_iff_eq.mp hmy, beq_iff_eq.mp he]
          rcases List.mem_cons.mp hy with rfl | hy'
          · exact hle (entryLe_refl_of_label hye)
          · exact hle (entryLe_trans (ha y hy')
              (entryLe_refl_of_label hye))
        rw [hnil]
        simp [he]
      · rw [if_neg he]
        simp [he]

theorem foldl_sortInsert_pairwise (es : List FieldMap) :
    ∀ acc, acc.Pairwise (fun a b => entryLe a b = true) →
    (es.foldl (fun a e => sortInsert e a) acc).Pairwise (fun a b => entryLe a b = true) := by
  induction es with
  | nil => intro acc h; exact h
  | cons e es ih =>
    intro acc h
    exact ih _ (sortInsert_pairwise e acc h)

theorem foldl_sortInsert_filter (l0 : String) (es : List FieldMap) :
    ∀ acc, acc.Pairwise (fun a b => entryLe a b = true) →
    (es.foldl (fun a e => sortInsert e a) acc).filter (fun x => labelOf x == l0)
      = acc.filter (fun x => labelOf x == l0) ++ es.filter (fun x => labelOf x == l0) := by
  induction es with
  | nil => intro acc _; simp
  | cons e es ih =>
    intro acc h
    have step := ih _ (sortInsert_pairwise e acc h)
    rw [List.foldl_cons, step, filter_sortInsert l0 e acc h, List.filter_cons]
    by_cases he : (labelOf e == l0) = true <;> simp [he]

theorem sortEntries_pairwise (es : List FieldMap) :
    (sortEntries es).Pairwise (fun a b => entryLe a b = true) :=
  foldl_sortInsert_pairwise es [] (by simp)

theorem sortEntries_filter (es : List FieldMap) (l0 : String) :
    (sortEntries es).filter (fun x => labelOf x == l0)
      = es.filter (fun x => labelOf x == l0) := by
  have := foldl_sortInsert_filter l0 es [] (by simp)
  simpa [sortEntries] using this

/-- C2: in sort mode the emitted records have labels non-decreasing in the
lexicographic code-point order across consecutive pairs and the sort is
stable (for every label, the subsequence of records with that label equals
the input subsequence); in streaming mode the emission order is exactly the
scan order of the input records. -/
theorem C2_order_invariant (rm : List String) (ls : List String) :
    (∀ es, pipelineEntries rm true ls = some es →
      es.Chain' (fun a b => strLe (labelOf a) (labelOf b) = true)) ∧
    (∀ es es0, pipelineEntries rm true ls = some es →
      pipelineEntries rm false ls = some es0 →
      ∀ l0, es.filter (fun e => labelOf e == l0) = es0.filter (fun e => labelOf e == l0)) ∧
    pipelineEntries rm false ls = mapOpt (group_entries rm) (scanAll ls) := by
  refine ⟨?_, ?_, ?_⟩
  · intro es h
    rw [pipelineEntries] at h
    cases hm : mapOpt (group_entries rm) (scanAll ls) with
    | none => rw [hm] at h; cases h
    | some es1 =>
      rw [hm] at h
      simp only [if_true] at h
      injection h with h
      subst h
      exact (sortEntries_pairwise es1).chain'
  · intro es es0 h h0
    rw [pipelineEntries] at h h0
    cases hm : mapOpt (group_entries rm) (scanAll ls) with
    | none => rw [hm] at h; cases h
    | some es1 =>
      rw [hm] at h h0
      simp only [if_true, if_false] at h h0
      injection h with h
      injection h0 with h0
      subst h
      subst h0
      intro l0
      exact sortEntries_filter es1 l0
  · rw [pipelineEntries]
    cases mapOpt (group_entries rm) (scanAll ls) <;> simp

/-- C2 witness: both sort-mode conjuncts discharged on a concrete two-record
stream whose labels arrive out of order. -/
theorem C2_order_invariant_witness :
    ([[("entry_type", "a"), ("label", "y")], [("entry_type", "b"), ("label", "z")]] :
        List FieldMap).Chain' (fun a b => strLe (labelOf a) (labelOf b) = true) ∧
    (∀ l0, ([[("entry_type", "a"), ("label", "y")], [("entry_type", "b"), ("label", "z")]] :
        List FieldMap).filter (fun e => labelOf e == l0)
      = ([[("entry_type", "b"), ("label", "z")], [("entry_type", "a"), ("label", "y")]] :
        List FieldMap).filter (fun e => labelOf e == l0)) :=
  ⟨(C2_order_invariant [] ["@b\x7Bz,\n", "\x7D\n", "@a\x7By,\n", "\x7D\n"]).1
      [[("entry_type", "a"), ("label", "y")], [("entry_type", "b"), ("label", "z")]]
      (by decide),
   (C2_order_invariant [] ["@b\x7Bz,\n", "\x7D\n", "@a\x7By,\n", "\x7D\n"]).2.1
      [[("entry_type", "a"), ("label", "y")], [("entry_type", "b"), ("label", "z")]]
      [[("entry_type", "b"), ("label", "z")], [("entry_type", "a"), ("label", "y")]]
      (by decide) (by decide)⟩

/-! ## String infrastructure for the round-trip proofs -/

theorem str_ext {s t : String} (h : s.data = t.data) : s = t := by
  cases s with
  | mk a => cases t with
    | mk b => exact congrArg String.mk h

theorem concatAll_append (a b : List String) :
    concatAll (a ++ b) = concatAll a ++ concatAll b := by
  induction a with
  | nil => simp [concatAll]
  | cons x xs ih => simp [concatAll, ih, String.append_assoc]

theorem no_nl_append {a b : String} (ha : ∀ c ∈ a.data, c ≠ '\n')
    (hb : ∀ c ∈ b.data, c ≠ '\n') : ∀ c ∈ (a ++ b).data, c ≠ '\n' := by
  intro c hc
  rw [String.data_append] at hc
  rcases List.mem_append.mp hc with h | h
  · exact ha c h
  · exact hb c h

theorem head_not_ws_of_lstrip {x : String} {c : Char} {cs : List Char}
    (hl : pyLstrip x = x) (hx : x.data = c :: cs) : isPyWs c = false := by
  by_contra hc
  rw [Bool.not_eq_false] at hc
  have hd := congrArg String.data hl
  rw [pyLstrip, hx] at hd
  simp only at hd
  rw [List.dropWhile_cons, if_pos hc] at hd
  have hlen := congrArg List.length hd
  have hle := (List.dropWhile_sublist (l := cs) isPyWs).length_le
  simp at hlen
  omega

theorem rstrip_data_of_rstrip {x : String} (hr : rstripCommaNl x = x) :
    x.data.reverse.dropWhile isCommaNl = x.data.reverse := by
  have hd := congrArg String.data hr
  rw [rstripCommaNl] at hd
  simp only at hd
  have := congrArg List.reverse hd
  rwa [List.reverse_reverse] at this

theorem countChar_eq_zero {c : Char} {s : String} (h : ∀ x ∈ s.data, x ≠ c) :
    countChar c s = 0 := by
  rw [countChar]
  exact List.count_eq_zero.mpr (fun hc => (h c hc) rfl)

/-! ### Extraction facts for the goodness predicates -/

theorem goodKey_ws {rm : List String} {k : String} (h : goodKey rm k = true) :
    ∀ c ∈ k.data, isPyWs c = false := by
  rw [goodKey] at h
  simp only [Bool.and_eq_true, List.all_eq_true] at h
  intro c hc
  have hx := h.1.1.1 c hc
  have := hx.1.1.1
  simpa using this

theorem goodKey_ne_eq {rm : List String} {k : String} (h : goodKey rm k = true) :
    ∀ c ∈ k.data, c ≠ '=' := by
  rw [goodKey] at h
  simp only [Bool.and_eq_true, List.all_eq_true] at h
  intro c hc
  have hx := h.1.1.1 c hc
  have := hx.1.1.2
  simpa using this

theorem goodKey_no_brace {rm : List String} {k : String} (h : goodKey rm k = true) :
    (∀ c ∈ k.data, c ≠ '\x7B') ∧ (∀ c ∈ k.data, c ≠ '\x7D') := by
  rw [goodKey] at h
  simp only [Bool.and_eq_true, List.all_eq_true] at h
  constructor <;> intro c hc <;> have hx := h.1.1.1 c hc
  · have := hx.1.2
    simpa using this
  · have := hx.2
    simpa using this

theorem goodKey_not_reserved {rm : List String} {k : String} (h : goodKey rm k = true) :
    ("entry_type" == k) = false ∧ ("label" == k) = false := by
  rw [goodKey] at h
  simp only [Bool.and_eq_true, Bool.not_eq_true'] at h
  obtain ⟨⟨⟨-, h1⟩, h2⟩, -⟩ := h
  constructor
  · simp only [beq_eq_false_iff_ne, ne_eq] at h1 ⊢
    exact fun hh => h1 hh.symm
  · simp only [beq_eq_false_iff_ne, ne_eq] at h2 ⊢
    exact fun hh => h2 hh.symm

theorem goodKey_not_removed {rm : List String} {k : String} (h : goodKey rm k = true) :
    rm.contains k = false := by
  rw [goodKey] at h
  simp only [Bool.and_eq_true, Bool.not_eq_true'] at h
  exact h.2

theorem goodKey_no_nl {rm : List String} {k : String} (h : goodKey rm k = true) :
    ∀ c ∈ k.data, c ≠ '\n' := by
  intro c hc heq
  have hf := goodKey_ws h c hc
  rw [heq] at hf
  exact absurd hf (by decide)

theorem goodVal_lstrip {v : String} (h : goodVal v = true) : pyLstrip v = v := by
  rw [goodVal] at h
  simp only [Bool.and_eq_true, beq_iff_eq] at h
  exact h.1.1.1

theorem goodVal_rstrip {v : String} (h : goodVal v = true) : rstripCommaNl v = v := by
  rw [goodVal] at h
  simp only [Bool.and_eq_true, beq_iff_eq] at h
  exact h.1.1.2

theorem goodVal_no_nl {v : String} (h : goodVal v = true) : ∀ c ∈ v.data, c ≠ '\n' := by
  rw [goodVal] at h
  simp only [Bool.and_eq_true, Bool.not_eq_true'] at h
  intro c hc heq
  subst heq
  have := h.1.2
  simp [List.contains_eq_any_beq] at this
  exact this hc

theorem goodVal_brace {v : String} (h : goodVal v = true) : braceDelta v = 0 := by
  rw [goodVal] at h
  simp only [Bool.and_eq_true, beq_iff_eq] at h
  exact braceDelta_eq_zero h.2

theorem goodEntryType_ws {t : String} (h : goodEntryType t = true) :
    ∀ c ∈ t.data, isPyWs c = false := by
  rw [goodEntryType] at h
  rw [List.all_eq_true] at h
  intro c hc
  have := h c hc
  simp only [Bool.and_eq_true, Bool.not_eq_true'] at this
  exact this.1.1

theorem goodEntryType_no_brace {t : String} (h : goodEntryType t = true) :
    (∀ c ∈ t.data, c ≠ '\x7B') ∧ (∀ c ∈ t.data, c ≠ '\x7D') := by
  rw [goodEntryType] at h
  rw [List.all_eq_true] at h
  constructor <;> intro c hc <;> have := h c hc <;>
    simp only [Bool.and_eq_true, bne_iff_ne, ne_eq] at this
  · exact this.1.2
  · exact this.2

theorem goodEntryType_no_nl {t : String} (h : goodEntryType t = true) :
    ∀ c ∈ t.data, c ≠ '\n' := by
  intro c hc heq
  have hf := goodEntryType_ws h c hc
  rw [heq] at hf
  exact absurd hf (by decide)

theorem goodLabel_lstrip {l : String} (h : goodLabel l = true) : pyLstrip l = l := by
  rw [goodLabel] at h
  simp only [Bool.and_eq_true, beq_iff_eq] at h
  exact h.1.1.1.1

theorem goodLabel_rstrip {l : String} (h : goodLabel l = true) : rstripCommaNl l = l := by
  rw [goodLabel] at h
  simp only [Bool.and_eq_true, beq_iff_eq] at h
  exact h.1.1.1.2

theorem goodLabel_no_nl {l : String} (h : goodLabel l = true) :
    ∀ c ∈ l.data, c ≠ '\n' := by
  rw [goodLabel] at h
  simp only [Bool.and_eq_true, Bool.not_eq_true'] at h
  intro c hc heq
  subst heq
  have := h.1.1.2
  simp [List.contains_eq_any_beq] at this
  exact this hc

theorem goodLabel_no_brace {l : String} (h : goodLabel l = true) :
    (∀ c ∈ l.data, c ≠ '\x7B') ∧ (∀ c ∈ l.data, c ≠ '\x7D') := by
  rw [goodLabel] at h
  simp only [Bool.and_eq_true, Bool.not_eq_true'] at h
  constructor <;> intro c hc heq <;> subst heq
  · have := h.1.2
    simp [List.contains_eq_any_beq] at this
    exact this hc
  · have := h.2
    simp [List.contains_eq_any_beq] at this
    exact this hc

theorem goodFields_cons {rm : List String} {k v : String} {fs : FieldMap}
    (h : goodFields rm ((k, v) :: fs) = true) :
    goodKey rm k = true ∧ goodVal v = true ∧ goodFields rm fs = true := by
  rw [goodFields] at h
  simp only [Bool.and_eq_true] at h
  exact ⟨h.1.1, h.1.2, h.2⟩

theorem goodEntry_shape {rm : List String} {d : FieldMap} (h : goodEntry rm d = true) :
    ∃ t l fs, d = ("entry_type", t) :: ("label", l) :: fs ∧ goodEntryType t = true ∧
      goodLabel l = true ∧ goodFields rm fs = true := by
  rcases d with _ | ⟨⟨k1, t⟩, _ | ⟨⟨k2, l⟩, fs⟩⟩
  · simp [goodEntry] at h
  · simp [goodEntry] at h
  · rw [show goodEntry rm ((k1, t) :: (k2, l) :: fs)
        = ((k1 == "entry_type") && (k2 == "label") &&
           goodEntryType t && goodLabel l && goodFields rm fs) from rfl] at h
    simp only [Bool.and_eq_true, beq_iff_eq] at h
    obtain ⟨⟨⟨⟨h1, h2⟩, h3⟩, h4⟩, h5⟩ := h
    subst h1
    subst h2
    exact ⟨t, l, fs, rfl, h3, h4, h5⟩

/-! ### Extraction of parsed components from rendered lines -/

theorem key_extract (k : String) (hk : ∀ c ∈ k.data, isPyWs c = false) :
    pyStrip ⟨k.data ++ [' ']⟩ = k := by
  by_cases hk0 : k.data = []
  · have hknil : k = "" := str_ext (by simp [hk0])
    subst hknil
    decide
  · obtain ⟨c, cs, hcc⟩ : ∃ c cs, k.data = c :: cs := by
      cases hcx : k.data with
      | nil => exact absurd hcx hk0
      | cons a as => exact ⟨a, as, rfl⟩
    have hcw : isPyWs c = false := hk c (by rw [hcc]; simp)
    have hlk : List.dropWhile isPyWs (k.data ++ [' ']) = k.data ++ [' '] := by
      rw [hcc]
      simp only [List.cons_append]
      rw [List.dropWhile_cons, if_neg (by simp [hcw])]
    rw [pyStrip]
    rw [show pyLstrip ⟨k.data ++ [' ']⟩ = ⟨k.data ++ [' ']⟩ from congrArg String.mk hlk]
    apply str_ext
    show ((k.data ++ [' ']).reverse.dropWhile isPyWs).reverse = k.data
    have h1 : (k.data ++ [' ']).reverse = ' ' :: k.data.reverse := by simp
    rw [h1, List.dropWhile_cons, if_pos (by decide),
      dropWhile_eq_self_of_all (fun x hx => hk x (List.mem_reverse.mp hx)),
      List.reverse_reverse]

theorem lstrip_rstrip_extract (x sep : String) (hl : pyLstrip x = x)
    (hr : rstripCommaNl x = x) (hsep : sep = ",\n" ∨ sep = "\n") :
    rstripCommaNl (pyLstrip ⟨x.data ++ sep.data⟩) = x := by
  by_cases hx0 : x.data = []
  · have hxe : x = "" := str_ext (by simp [hx0])
    subst hxe
    rcases hsep with rfl | rfl <;> decide
  · obtain ⟨c, cs, hcc⟩ : ∃ c cs, x.data = c :: cs := by
      cases hcx : x.data with
      | nil => exact absurd hcx hx0
      | cons a as => exact ⟨a, as, rfl⟩
    have hcw : isPyWs c = false := head_not_ws_of_lstrip hl hcc
    have h1 : pyLstrip ⟨x.data ++ sep.data⟩ = ⟨x.data ++ sep.data⟩ := by
      apply congrArg String.mk
      show List.dropWhile isPyWs (x.data ++ sep.data) = x.data ++ sep.data
      rw [hcc]
      simp only [List.cons_append]
      rw [List.dropWhile_cons, if_neg (by simp [hcw])]
    have h2 : (⟨x.data ++ sep.data⟩ : String) = x ++ sep :=
      str_ext (by simp [String.data_append])
    rw [h1, h2]
    have hsepall : ∀ ch ∈ sep.data, isCommaNl ch = true := by
      rcases hsep with rfl | rfl <;> decide
    rw [rstripCommaNl_append_of_all hsepall, hr]

theorem val_extract (v sep : String) (hl : pyLstrip v = v) (hr : rstripCommaNl v = v)
    (hsep : sep = ",\n" ∨ sep = "\n") :
    rstripCommaNl (pyLstrip ⟨' ' :: (v.data ++ sep.data)⟩) = v := by
  have h1 : pyLstrip ⟨' ' :: (v.data ++ sep.data)⟩ = pyLstrip ⟨v.data ++ sep.data⟩ := by
    apply congrArg String.mk
    show List.dropWhile isPyWs (' ' :: (v.data ++ sep.data))
        = List.dropWhile isPyWs (v.data ++ sep.data)
    rw [List.dropWhile_cons, if_pos (by decide)]
  rw [h1]
  exact lstrip_rstrip_extract v sep hl hr hsep

theorem entry_type_extract (t : String) (ht : ∀ c ∈ t.data, isPyWs c = false) :
    (⟨(pyStrip ⟨'@' :: t.data⟩).data.drop 1⟩ : String) = t := by
  have hall : ∀ c ∈ ((⟨'@' :: t.data⟩ : String)).data, isPyWs c = false := by
    intro c hc
    rcases List.mem_cons.mp hc with rfl | hc
    · decide
    · exact ht c hc
  rw [pyStrip_of_all_not hall]
  exact str_ext (by simp)

theorem rstripCommaNl_append_keep (a b : String) (hb : rstripCommaNl b = b)
    (hbne : b.data ≠ []) : rstripCommaNl (a ++ b) = a ++ b := by
  apply str_ext
  show ((a ++ b).data.reverse.dropWhile isCommaNl).reverse = (a ++ b).data
  rw [String.data_append, List.reverse_append]
  have hrev : b.data.reverse.dropWhile isCommaNl = b.data.reverse :=
    rstrip_data_of_rstrip hb
  rw [List.dropWhile_append, hrev,
    if_neg (by simpa using hbne), List.reverse_append, List.reverse_reverse,
    List.reverse_reverse]

theorem strip_field_line (k v : String) (hv : rstripCommaNl v = v) :
    rstripCommaNl (k ++ " = " ++ v ++ ",\n") = k ++ " = " ++ v := by
  rw [rstripCommaNl_append_of_all (t := ",\n") (by decide)]
  cases hv0 : v.data with
  | nil =>
    have hve : v = "" := str_ext (by simp [hv0])
    subst hve
    rw [show (k ++ " = " ++ "") = k ++ " = " from by simp]
    exact rstripCommaNl_append_keep k " = " (by decide) (by decide)
  | cons c cs =>
    exact rstripCommaNl_append_keep (k ++ " = ") v hv (by rw [hv0]; simp)

theorem strip_first_line (t l : String) (hl : rstripCommaNl l = l) :
    rstripCommaNl ("@" ++ t ++ "\x7B" ++ l ++ ",\n") = "@" ++ t ++ "\x7B" ++ l := by
  rw [rstripCommaNl_append_of_all (t := ",\n") (by decide)]
  cases hl0 : l.data with
  | nil =>
    have hle : l = "" := str_ext (by simp [hl0])
    subst hle
    rw [show ("@" ++ t ++ "\x7B" ++ "") = "@" ++ t ++ "\x7B" from by simp]
    exact rstripCommaNl_append_keep ("@" ++ t) "\x7B" (by decide) (by decide)
  | cons c cs =>
    exact rstripCommaNl_append_keep ("@" ++ t ++ "\x7B") l hl (by rw [hl0]; simp)

/-! ### Splitting rendered text back into physical lines -/

theorem splitLinesAux_line {w : List Char} (hw : ∀ c ∈ w, c ≠ '\n') :
    ∀ acc rest, splitLinesAux (w ++ '\n' :: rest) acc
      = (⟨acc.reverse ++ (w ++ ['\n'])⟩ : String) :: splitLinesAux rest [] := by
  induction w with
  | nil =>
    intro acc rest
    rw [List.nil_append, splitLinesAux, if_pos (by decide)]
    congr 1
    apply str_ext
    simp
  | cons c cs ih =>
    intro acc rest
    have hc : (c == '\n') = false := by simp [hw c (by simp)]
    rw [List.cons_append, splitLinesAux, if_neg (by simp [hc]),
      ih (fun x hx => hw x (by simp [hx])) (c :: acc) rest]
    congr 1
    apply str_ext
    simp

theorem splitLines_peel (x : String) (rest : List String) {w : List Char}
    (hx : x.data = w ++ ['\n']) (hw : ∀ c ∈ w, c ≠ '\n') :
    splitLines (x ++ concatAll rest) = x :: splitLines (concatAll rest) := by
  rw [splitLines]
  have hdata : (x ++ concatAll rest).data = w ++ '\n' :: (concatAll rest).data := by
    rw [String.data_append, hx]
    simp
  rw [hdata, splitLinesAux_line hw [] _]
  congr 1
  exact (str_ext (by simp [hx])).symm

theorem splitLines_empty : splitLines (concatAll []) = [] := rfl

/-! ### Parsing rendered records back -/

theorem isBlank_field_line (k v sep : String) :
    isBlank (k ++ " = " ++ v ++ sep) = false := by
  apply isBlank_false (c := '=')
  · simp only [String.data_append]
    refine List.mem_append.mpr (Or.inl ?_)
    refine List.mem_append.mpr (Or.inl ?_)
    refine List.mem_append.mpr (Or.inr ?_)
    decide
  · decide

theorem splitOnce_field_line (k v sep : String) (hk : ∀ c ∈ k.data, c ≠ '=') :
    splitOnce '=' (k ++ " = " ++ v ++ sep)
      = some (⟨k.data ++ [' ']⟩, ⟨' ' :: (v.data ++ sep.data)⟩) := by
  have hx : ∀ x ∈ k.data ++ [' '], x ≠ '=' := by
    intro x hxm
    rcases List.mem_append.mp hxm with h | h
    · exact hk x h
    · simp only [List.mem_singleton] at h
      subst h
      decide
  have hdata : (k ++ " = " ++ v ++ sep).data
      = (k.data ++ [' ']) ++ '=' :: (' ' :: (v.data ++ sep.data)) := by
    simp only [String.data_append]
    show k.data ++ [' ', '=', ' '] ++ v.data ++ sep.data = _
    simp
  rw [show (k ++ " = " ++ v ++ sep)
      = (⟨(k.data ++ [' ']) ++ '=' :: (' ' :: (v.data ++ sep.data))⟩ : String)
    from str_ext hdata]
  exact splitOnce_concat _ hx

theorem braceDelta_field_line (k v sep : String)
    (hk1 : ∀ c ∈ k.data, c ≠ '\x7B') (hk2 : ∀ c ∈ k.data, c ≠ '\x7D')
    (hv : braceDelta v = 0) (hsep : sep = ",\n" ∨ sep = "\n") :
    braceDelta (k ++ " = " ++ v ++ sep) = 0 := by
  rw [braceDelta_append, braceDelta_append, braceDelta_append]
  have h1 : braceDelta k = 0 := by
    rw [braceDelta, countChar_eq_zero hk1, countChar_eq_zero hk2]
    simp
  have h2 : braceDelta " = " = 0 := by decide
  have h3 : braceDelta sep = 0 := by rcases hsep with rfl | rfl <;> decide
  rw [h1, h2, hv, h3]
  simp

theorem groupLoop_close (rm : List String) (extra : List String) (d : FieldMap)
    (cur : String) :
    groupLoop rm ("\x7D\n" :: extra) d 1 false cur = some d := by
  rw [groupLoop, if_neg (by decide : ¬isBlank "\x7D\n" = true),
    if_pos (by decide : ((1 : Int) == 1) = true),
    if_pos (by decide : ((1 : Int) + braceDelta "\x7D\n" == 0) = true)]

theorem groupLoop_field_step (rm : List String) (k v sep : String) (rest : List String)
    (d : FieldMap) (cur : String)
    (hk : goodKey rm k = true) (hv : goodVal v = true)
    (hsep : sep = ",\n" ∨ sep = "\n")
    (hfresh : odContains d k = false) :
    groupLoop rm ((k ++ " = " ++ v ++ sep) :: rest) d 1 false cur
      = groupLoop rm rest (d ++ [(k, v)]) 1 false k := by
  have hb : isBlank (k ++ " = " ++ v ++ sep) = false := isBlank_field_line k v sep
  have hdelta : braceDelta (k ++ " = " ++ v ++ sep) = 0 :=
    braceDelta_field_line k v sep (goodKey_no_brace hk).1 (goodKey_no_brace hk).2
      (goodVal_brace hv) hsep
  rw [groupLoop, if_neg (by simp [hb]), if_pos (by decide : ((1 : Int) == 1) = true),
    if_neg (by rw [hdelta]; decide),
    splitOnce_field_line k v sep (goodKey_ne_eq hk)]
  dsimp only
  rw [key_extract k (goodKey_ws hk),
    val_extract v sep (goodVal_lstrip hv) (goodVal_rstrip hv) hsep,
    if_neg (by rw [goodKey_not_removed hk, multiWord_of_all_not (goodKey_ws hk)]; simp),
    show odInsert d k v = d ++ [(k, v)] from by rw [odInsert, if_neg (by simp [hfresh])],
    hdelta]
  norm_num

theorem odContains_append_single (d : FieldMap) (k v x : String) :
    odContains (d ++ [(k, v)]) x = (odContains d x || (k == x)) := by
  simp [odContains, List.any_append]

theorem groupLoop_render (rm : List String) (fs : FieldMap) :
    ∀ d cur extra, goodFields rm fs = true →
    (∀ p ∈ fs, odContains d p.1 = false) →
    (fs.map Prod.fst).Nodup →
    groupLoop rm (renderFieldLines fs ++ ("\x7D\n" :: extra)) d 1 false cur
      = some (d ++ fs) := by
  induction fs with
  | nil =>
    intro d cur extra _ _ _
    simpa using groupLoop_close rm extra d cur
  | cons kv fs ih =>
    obtain ⟨k, v⟩ := kv
    intro d cur extra hg hf hnd
    obtain ⟨hk, hv, hg2⟩ := goodFields_cons hg
    cases fs with
    | nil =>
      rw [show renderFieldLines [(k, v)] = [k ++ " = " ++ v ++ "\n"] from rfl]
      simp only [List.cons_append, List.nil_append]
      rw [groupLoop_field_step rm k v "\n" _ d cur hk hv (Or.inr rfl)
        (hf (k, v) (by simp))]
      simpa using groupLoop_close rm extra (d ++ [(k, v)]) k
    | cons kv2 fs2 =>
      rw [show renderFieldLines ((k, v) :: kv2 :: fs2)
          = (k ++ " = " ++ v ++ ",\n") :: renderFieldLines (kv2 :: fs2) from rfl]
      simp only [List.cons_append]
      rw [groupLoop_field_step rm k v ",\n" _ d cur hk hv (Or.inl rfl)
        (hf (k, v) (by simp))]
      have hf2 : ∀ p ∈ kv2 :: fs2, odContains (d ++ [(k, v)]) p.1 = false := by
        intro p hp
        rw [odContains_append_single]
        have h1 : odContains d p.1 = false := hf p (by simp [hp])
        have h2 : (k == p.1) = false := by
          have hk1 : k ∉ (kv2 :: fs2).map Prod.fst := by
            have := hnd
            rw [List.map_cons, List.nodup_cons] at this
            exact this.1
          simp only [beq_eq_false_iff_ne, ne_eq]
          intro heq
          exact hk1 (heq ▸ List.mem_map.mpr ⟨p, hp, rfl⟩)
        rw [h1, h2]
        rfl
      have hnd2 : ((kv2 :: fs2).map Prod.fst).Nodup := by
        have := hnd
        rw [List.map_cons, List.nodup_cons] at this
        exact this.2
      have := ih (d ++ [(k, v)]) k extra hg2 hf2 hnd2
      rw [this]
      simp

theorem goodFields_mem {rm : List String} {fs : FieldMap} (h : goodFields rm fs = true) :
    ∀ p ∈ fs, goodKey rm p.1 = true ∧ goodVal p.2 = true := by
  induction fs with
  | nil => intro p hp; cases hp
  | cons kv fs ih =>
    obtain ⟨k, v⟩ := kv
    obtain ⟨hk, hv, hg⟩ := goodFields_cons h
    intro p hp
    rcases List.mem_cons.mp hp with rfl | hp
    · exact ⟨hk, hv⟩
    · exact ih hg p hp

theorem group_entries_record (rm : List String) (t l : String) (fs : FieldMap)
    (extra : List String)
    (ht : goodEntryType t = true) (hl : goodLabel l = true)
    (hfs : goodFields rm fs = true)
    (hnd : (fs.map Prod.fst).Nodup) :
    group_entries rm (("@" ++ t ++ "\x7B" ++ l ++ entrySep fs)
        :: (renderFieldLines fs ++ ("\x7D\n" :: extra)))
      = some (("entry_type", t) :: ("label", l) :: fs) := by
  have hsep : entrySep fs = ",\n" ∨ entrySep fs = "\n" := by
    cases fs with
    | nil => right; rfl
    | cons a b => left; rfl
  have hdata : ("@" ++ t ++ "\x7B" ++ l ++ entrySep fs).data
      = ('@' :: t.data) ++ '\x7B' :: (l.data ++ (entrySep fs).data) := by
    simp only [String.data_append]
    show '@' :: t.data ++ ['\x7B'] ++ l.data ++ (entrySep fs).data = _
    simp
  have hx : ∀ x ∈ '@' :: t.data, x ≠ '\x7B' := by
    intro x hxm
    rcases List.mem_cons.mp hxm with rfl | hxm
    · decide
    · exact (goodEntryType_no_brace ht).1 x hxm
  rw [group_entries]
  rw [show ("@" ++ t ++ "\x7B" ++ l ++ entrySep fs)
      = (⟨('@' :: t.data) ++ '\x7B' :: (l.data ++ (entrySep fs).data)⟩ : String)
    from str_ext hdata]
  rw [splitOnce_concat _ hx]
  dsimp only
  rw [show (⟨'@' :: t.data⟩ : String) = "@" ++ t from str_ext (by simp [String.data_append])]
  rw [show pyStrip ("@" ++ t) = "@" ++ t from pyStrip_of_all_not (by
    intro c hc
    rw [String.data_append] at hc
    rcases List.mem_append.mp hc with h | h
    · simp only [show ("@" : String).data = ['@'] from rfl, List.mem_singleton] at h
      subst h
      decide
    · exact goodEntryType_ws ht c h)]
  rw [show (⟨("@" ++ t).data.drop 1⟩ : String) = t from str_ext (by
    rw [String.data_append]
    simp)]
  rw [lstrip_rstrip_extract l (entrySep fs) (goodLabel_lstrip hl) (goodLabel_rstrip hl) hsep]
  have hfresh : ∀ p ∈ fs, odContains [("entry_type", t), ("label", l)] p.1 = false := by
    intro p hp
    obtain ⟨hk, -⟩ := goodFields_mem hfs p hp
    have h1 := (goodKey_not_reserved hk).1
    have h2 := (goodKey_not_reserved hk).2
    simp [odContains, h1, h2]
  rw [groupLoop_render rm fs [("entry_type", t), ("label", l)] "" extra hfs hfresh hnd]
  rfl

/-! ### The serializer output of a well-behaved entry -/

theorem odGet_entry_type (t l : String) (fs : FieldMap) :
    odGet (("entry_type", t) :: ("label", l) :: fs) "entry_type" = some t := by
  rw [odGet, List.find?_cons_of_pos _ (by simp)]
  rfl

theorem odGet_label (t l : String) (fs : FieldMap) :
    odGet (("entry_type", t) :: ("label", l) :: fs) "label" = some l := by
  rw [odGet, List.find?_cons_of_neg _ (by simp), List.find?_cons_of_pos _ (by simp)]
  rfl

theorem stripLastLine_cons_of_ne (a : String) (rest : List String) (h : rest ≠ []) :
    stripLastLine (a :: rest) = a :: stripLastLine rest := by
  cases rest with
  | nil => cases h rfl
  | cons b bs => rfl

theorem stripLast_render (fs : FieldMap)
    (hfs : ∀ p ∈ fs, rstripCommaNl p.2 = p.2) (hne : fs ≠ []) :
    stripLastLine (fs.map (fun p => p.1 ++ " = " ++ p.2 ++ ",\n")) = renderFieldLines fs := by
  induction fs with
  | nil => cases hne rfl
  | cons kv fs ih =>
    obtain ⟨k, v⟩ := kv
    cases fs with
    | nil =>
      rw [List.map_cons, List.map_nil,
        show stripLastLine [k ++ " = " ++ v ++ ",\n"]
          = [rstripCommaNl (k ++ " = " ++ v ++ ",\n") ++ "\n"] from rfl,
        strip_field_line k v (hfs (k, v) (by simp))]
      rfl
    | cons kv2 fs2 =>
      rw [List.map_cons, stripLastLine_cons_of_ne _ _ (by simp),
        ih (fun p hp => hfs p (by simp [hp])) (by simp)]
      rfl

theorem dump_entry_shape (t l : String) (fs : FieldMap)
    (hres : ∀ p ∈ fs, (p.1 == "entry_type") = false ∧ (p.1 == "label") = false)
    (hstrip : ∀ p ∈ fs, rstripCommaNl p.2 = p.2)
    (hlstrip : rstripCommaNl l = l) :
    dump_entry (("entry_type", t) :: ("label", l) :: fs) = some (entryOutLines t l fs) := by
  rw [dump_entry, odGet_entry_type, odGet_label]
  dsimp only
  rw [List.filter_cons_of_neg (by simp), List.filter_cons_of_neg (by simp),
    List.filter_eq_self.mpr (fun p hp => by simp [(hres p hp).1, (hres p hp).2])]
  cases fs with
  | nil =>
    rw [List.map_nil,
      show stripLastLine [("@" ++ t ++ "\x7B" ++ l ++ ",\n")]
        = [rstripCommaNl ("@" ++ t ++ "\x7B" ++ l ++ ",\n") ++ "\n"] from rfl,
      strip_first_line t l hlstrip]
    rfl
  | cons kv fs2 =>
    rw [stripLastLine_cons_of_ne _ _ (by simp),
      stripLast_render (kv :: fs2) hstrip (by simp)]
    rfl

/-! ### Splitting serialized entries back into physical lines -/

theorem splitLines_concat_list (xs : List String) (rest : List String)
    (hx : ∀ x ∈ xs, ∃ w, x.data = w ++ ['\n'] ∧ ∀ c ∈ w, c ≠ '\n') :
    splitLines (concatAll (xs ++ rest)) = xs ++ splitLines (concatAll rest) := by
  induction xs with
  | nil => simp
  | cons x xs ih =>
    obtain ⟨w, hw1, hw2⟩ := hx x (by simp)
    rw [List.cons_append,
      show concatAll (x :: (xs ++ rest)) = x ++ concatAll (xs ++ rest) from rfl,
      splitLines_peel x (xs ++ rest) hw1 hw2,
      ih (fun y hy => hx y (by simp [hy]))]
    rfl

theorem splitLines_close (rest : List String) :
    splitLines (concatAll ("\x7D\n\n" :: rest))
      = "\x7D\n" :: "\n" :: splitLines (concatAll rest) := by
  have h1 : ("\x7D\n\n" : String) = "\x7D\n" ++ "\n" := by decide
  rw [show concatAll ("\x7D\n\n" :: rest) = "\x7D\n\n" ++ concatAll rest from rfl, h1,
    String.append_assoc,
    show ("\n" : String) ++ concatAll rest = concatAll ("\n" :: rest) from rfl,
    splitLines_peel "\x7D\n" ("\n" :: rest) (w := ['\x7D']) rfl (by decide)]
  congr 1

theorem mem_renderFieldLines {fs : FieldMap} {x : String} (hx : x ∈ renderFieldLines fs) :
    ∃ k v sep, (k, v) ∈ fs ∧ (sep = ",\n" ∨ sep = "\n") ∧ x = k ++ " = " ++ v ++ sep := by
  induction fs with
  | nil => cases hx
  | cons kv fs ih =>
    obtain ⟨k, v⟩ := kv
    cases fs with
    | nil =>
      simp only [renderFieldLines, List.mem_singleton] at hx
      exact ⟨k, v, "\n", by simp, Or.inr rfl, hx⟩
    | cons kv2 fs2 =>
      rw [show renderFieldLines ((k, v) :: kv2 :: fs2)
          = (k ++ " = " ++ v ++ ",\n") :: renderFieldLines (kv2 :: fs2) from rfl] at hx
      rcases List.mem_cons.mp hx with rfl | hx
      · exact ⟨k, v, ",\n", by simp, Or.inl rfl, rfl⟩
      · obtain ⟨k2, v2, sep, hm, hs, he⟩ := ih hx
        exact ⟨k2, v2, sep, by simp [hm], hs, he⟩

theorem entry_lines_single (rm : List String) (t l : String) (fs : FieldMap)
    (ht : goodEntryType t = true) (hl : goodLabel l = true)
    (hfs : goodFields rm fs = true) :
    ∀ x ∈ ("@" ++ t ++ "\x7B" ++ l ++ entrySep fs) :: renderFieldLines fs,
      ∃ w, x.data = w ++ ['\n'] ∧ ∀ c ∈ w, c ≠ '\n' := by
  intro x hx
  rcases List.mem_cons.mp hx with rfl | hx
  · have hpre : ∀ c ∈ ("@" ++ t ++ "\x7B" ++ l).data, c ≠ '\n' :=
      no_nl_append (no_nl_append (no_nl_append (by decide) (goodEntryType_no_nl ht))
        (by decide)) (goodLabel_no_nl hl)
    cases fs with
    | nil =>
      refine ⟨("@" ++ t ++ "\x7B" ++ l).data, ?_, hpre⟩
      show ("@" ++ t ++ "\x7B" ++ l ++ "\n").data = _
      simp [String.data_append]
    | cons a b =>
      refine ⟨("@" ++ t ++ "\x7B" ++ l).data ++ [','], ?_, ?_⟩
      · show ("@" ++ t ++ "\x7B" ++ l ++ ",\n").data = _
        simp [String.data_append]
      · intro c hc
        rcases List.mem_append.mp hc with h | h
        · exact hpre c h
        · simp only [List.mem_singleton] at h
          subst h
          decide
  · obtain ⟨k, v, sep, hm, hs, rfl⟩ := mem_renderFieldLines hx
    obtain ⟨hk, hv⟩ := goodFields_mem hfs _ hm
    have hpre : ∀ c ∈ (k ++ " = " ++ v).data, c ≠ '\n' :=
      no_nl_append (no_nl_append (goodKey_no_nl hk) (by decide)) (goodVal_no_nl hv)
    rcases hs with rfl | rfl
    · refine ⟨(k ++ " = " ++ v).data ++ [','], ?_, ?_⟩
      · simp [String.data_append]
      · intro c hc
        rcases List.mem_append.mp hc with h | h
        · exact hpre c h
        · simp only [List.mem_singleton] at h
          subst h
          decide
    · exact ⟨(k ++ " = " ++ v).data, by simp [String.data_append], hpre⟩

theorem splitLines_entryOut (rm : List String) (t l : String) (fs : FieldMap)
    (rest : List String)
    (ht : goodEntryType t = true) (hl : goodLabel l = true)
    (hfs : goodFields rm fs = true) :
    splitLines (concatAll (entryOutLines t l fs ++ rest))
      = entryPhysLines t l fs ++ splitLines (concatAll rest) := by
  rw [entryOutLines, entryPhysLines,
    show (("@" ++ t ++ "\x7B" ++ l ++ entrySep fs) :: renderFieldLines fs ++ ["\x7D\n\n"]) ++ rest
      = (("@" ++ t ++ "\x7B" ++ l ++ entrySep fs) :: renderFieldLines fs)
        ++ ("\x7D\n\n" :: rest) from by simp,
    splitLines_concat_list _ _ (entry_lines_single rm t l fs ht hl hfs),
    splitLines_close]
  simp

/-! ### Unfolding the fuelled driver loop -/

theorem scanIn_rest_le (ls : List String) :
    ∀ depth acc, (scanIn ls depth acc).2.1.length ≤ ls.length := by
  induction ls with
  | nil =>
    intro depth acc
    rw [scanIn]
  | cons l rest ih =>
    intro depth acc
    rw [scanIn]
    by_cases h0 : (depth + braceDelta l == 0) = true
    · rw [if_pos h0]
      simp
    · rw [if_neg h0]
      exact le_trans (ih _ _) (by simp)

theorem next_entry_rest_lt (ls : List String) :
    (next_entry_lines ls).1 ≠ [] → (next_entry_lines ls).2.1.length < ls.length := by
  induction ls with
  | nil =>
    intro h
    rw [next_entry_lines] at h
    simp at h
  | cons l rest ih =>
    intro h
    rw [next_entry_lines] at h ⊢
    by_cases hA : startsWithAt l = true
    · rw [if_pos hA] at h ⊢
      calc (scanIn rest (braceDelta l) [l]).2.1.length
          ≤ rest.length := scanIn_rest_le rest _ _
        _ < (l :: rest).length := by simp
    · rw [if_neg hA] at h ⊢
      exact lt_trans (ih h) (by simp)

theorem scanAllFuel_stable : ∀ f1 f2 : Nat, ∀ ls : List String,
    ls.length ≤ f1 → ls.length ≤ f2 → scanAllFuel f1 ls = scanAllFuel f2 ls := by
  intro f1
  induction f1 with
  | zero =>
    intro f2 ls h1 h2
    have hnil : ls = [] := by
      cases ls with
      | nil => rfl
      | cons a as => simp at h1
    subst hnil
    cases f2 with
    | zero => rfl
    | succ g =>
      rw [scanAllFuel, scanAllFuel]
      simp [next_entry_lines]
  | succ a ih =>
    intro f2 ls h1 h2
    cases f2 with
    | zero =>
      have hnil : ls = [] := by
        cases ls with
        | nil => rfl
        | cons x xs => simp at h2
      subst hnil
      rw [scanAllFuel, scanAllFuel]
      simp [next_entry_lines]
    | succ b =>
      rw [scanAllFuel, scanAllFuel]
      rcases hne : next_entry_lines ls with ⟨rec, rest, flag⟩
      dsimp only
      by_cases hrec : rec.isEmpty = true
      · rw [if_pos hrec, if_pos hrec]
      · rw [if_neg hrec, if_neg hrec]
        congr 1
        have hlt : rest.length < ls.length := by
          have hx := next_entry_rest_lt ls (by rw [hne]; simpa using hrec)
          rw [hne] at hx
          exact hx
        exact ih b rest (by omega) (by omega)

theorem scanAll_eq (ls : List String) :
    scanAll ls = if (next_entry_lines ls).1.isEmpty then []
      else (next_entry_lines ls).1 :: scanAll ((next_entry_lines ls).2.1) := by
  rw [scanAll]
  cases hls : ls with
  | nil =>
    rw [show ([] : List String).length = 0 from rfl, scanAllFuel]
    simp [next_entry_lines]
  | cons l rest =>
    rw [show (l :: rest).length = rest.length + 1 from rfl, scanAllFuel]
    rcases hne : next_entry_lines (l :: rest) with ⟨rec, rest2, flag⟩
    dsimp only
    by_cases hrec : rec.isEmpty = true
    · rw [if_pos hrec, if_pos hrec]
    · rw [if_neg hrec, if_neg hrec]
      congr 1
      rw [scanAll]
      apply scanAllFuel_stable
      · have hx := next_entry_rest_lt (l :: rest) (by rw [hne]; simpa using hrec)
        rw [hne] at hx
        simp only [List.length_cons] at hx
        omega
      · exact le_refl _

/-! ### Scanning a serialized block -/

theorem scanIn_step_zero_delta (l : String) (hl : braceDelta l = 0)
    (ls : List String) (acc : List String) :
    scanIn (l :: ls) 1 acc = scanIn ls 1 (acc ++ [l]) := by
  rw [scanIn, if_neg (by rw [hl]; decide), hl]
  norm_num

theorem scanIn_close (rest2 acc : List String) :
    scanIn ("\x7D\n" :: rest2) 1 acc = (acc ++ ["\x7D\n"], rest2, true) := by
  rw [scanIn, if_pos (by decide)]

theorem scanIn_lines (lines : List String) (hl : ∀ x ∈ lines, braceDelta x = 0) :
    ∀ acc rest2, scanIn (lines ++ ("\x7D\n" :: rest2)) 1 acc
      = (acc ++ lines ++ ["\x7D\n"], rest2, true) := by
  induction lines with
  | nil =>
    intro acc rest2
    simpa using scanIn_close rest2 acc
  | cons x xs ih =>
    intro acc rest2
    rw [List.cons_append, scanIn_step_zero_delta x (hl x (by simp)) _ acc,
      ih (fun y hy => hl y (by simp [hy])) (acc ++ [x]) rest2]
    simp

theorem renderFieldLines_delta (rm : List String) (fs : FieldMap)
    (hfs : goodFields rm fs = true) :
    ∀ x ∈ renderFieldLines fs, braceDelta x = 0 := by
  intro x hx
  obtain ⟨k, v, sep, hm, hs, rfl⟩ := mem_renderFieldLines hx
  obtain ⟨hk, hv⟩ := goodFields_mem hfs _ hm
  exact braceDelta_field_line k v sep (goodKey_no_brace hk).1 (goodKey_no_brace hk).2
    (goodVal_brace hv) hs

theorem startsWithAt_append (x : String) : startsWithAt ("@" ++ x) = true := by
  have hd : ("@" ++ x).data = '@' :: x.data := by
    rw [String.data_append]
    rfl
  rw [startsWithAt, hd]
  rfl

theorem braceDelta_first_line (t l sep : String)
    (ht1 : ∀ c ∈ t.data, c ≠ '\x7B') (ht2 : ∀ c ∈ t.data, c ≠ '\x7D')
    (hl1 : ∀ c ∈ l.data, c ≠ '\x7B') (hl2 : ∀ c ∈ l.data, c ≠ '\x7D')
    (hsep : sep = ",\n" ∨ sep = "\n") :
    braceDelta ("@" ++ t ++ "\x7B" ++ l ++ sep) = 1 := by
  rw [braceDelta_append, braceDelta_append, braceDelta_append, braceDelta_append]
  have h1 : braceDelta "@" = 0 := by decide
  have h2 : braceDelta t = 0 := by
    rw [braceDelta, countChar_eq_zero ht1, countChar_eq_zero ht2]
    simp
  have h3 : braceDelta "\x7B" = 1 := by decide
  have h4 : braceDelta l = 0 := by
    rw [braceDelta, countChar_eq_zero hl1, countChar_eq_zero hl2]
    simp
  have h5 : braceDelta sep = 0 := by rcases hsep with rfl | rfl <;> decide
  rw [h1, h2, h3, h4, h5]
  simp

theorem next_entry_block (rm : List String) (t l : String) (fs : FieldMap)
    (rest2 : List String)
    (ht : goodEntryType t = true) (hl : goodLabel l = true)
    (hfs : goodFields rm fs = true) :
    next_entry_lines (entryPhysLines t l fs ++ rest2)
      = (entryRecLines t l fs, "\n" :: rest2, true) := by
  have hsep : entrySep fs = ",\n" ∨ entrySep fs = "\n" := by
    cases fs with
    | nil => right; rfl
    | cons a b => left; rfl
  have hbd : braceDelta ("@" ++ t ++ "\x7B" ++ l ++ entrySep fs) = 1 :=
    braceDelta_first_line t l (entrySep fs) (goodEntryType_no_brace ht).1
      (goodEntryType_no_brace ht).2 (goodLabel_no_brace hl).1 (goodLabel_no_brace hl).2 hsep
  rw [show entryPhysLines t l fs ++ rest2
      = ("@" ++ t ++ "\x7B" ++ l ++ entrySep fs)
        :: (renderFieldLines fs ++ ("\x7D\n" :: ("\n" :: rest2))) from by
    rw [entryPhysLines]
    simp]
  rw [next_entry_lines,
    if_pos (by rw [show ("@" ++ t ++ "\x7B" ++ l ++ entrySep fs)
        = "@" ++ (t ++ "\x7B" ++ l ++ entrySep fs) from by
      simp [String.append_assoc]]; exact startsWithAt_append _),
    hbd, scanIn_lines (renderFieldLines fs) (renderFieldLines_delta rm fs hfs) _ _]
  rw [entryRecLines]
  simp

theorem next_entry_skip (x : String) (ls : List String) (h : startsWithAt x = false) :
    next_entry_lines (x :: ls) = next_entry_lines ls := by
  rw [next_entry_lines, if_neg (by simp [h])]

theorem scanAll_skip (x : String) (ls : List String) (h : startsWithAt x = false) :
    scanAll (x :: ls) = scanAll ls := by
  rw [scanAll_eq (x :: ls), scanAll_eq ls, next_entry_skip x ls h]

theorem scanAll_blocks (rm : List String) (es : List FieldMap)
    (hg : ∀ e ∈ es, goodEntry rm e = true) :
    scanAll ((es.map entryPhysOf).flatten) = es.map entryRecOf := by
  induction es with
  | nil => rfl
  | cons e es ih =>
    obtain ⟨t, l, fs, rfl, ht, hl, hfs⟩ := goodEntry_shape (hg e (by simp))
    rw [List.map_cons, List.flatten_cons,
      show entryPhysOf (("entry_type", t) :: ("label", l) :: fs)
        = entryPhysLines t l fs from rfl,
      scanAll_eq, next_entry_block rm t l fs _ ht hl hfs]
    dsimp only
    rw [if_neg (by rw [entryRecLines]; simp)]
    congr 1
    rw [scanAll_skip "\n" _ (by decide)]
    exact ih (fun x hx => hg x (by simp [hx]))

/-! ### Sorting an already sorted list -/

theorem sortInsert_of_all_le (e : FieldMap) (acc : List FieldMap)
    (h : ∀ x ∈ acc, entryLe x e = true) : sortInsert e acc = acc ++ [e] := by
  induction acc with
  | nil => rfl
  | cons a as ih =>
    rw [sortInsert, if_pos (h a (by simp)), ih (fun x hx => h x (by simp [hx]))]
    rfl

theorem foldl_sortInsert_of_sorted (es : List FieldMap) :
    ∀ acc, (acc ++ es).Pairwise (fun a b => entryLe a b = true) →
    es.foldl (fun a e => sortInsert e a) acc = acc ++ es := by
  induction es with
  | nil =>
    intro acc _
    simp
  | cons e es ih =>
    intro acc h
    have hall : ∀ x ∈ acc, entryLe x e = true := by
      intro x hx
      exact (List.pairwise_append.mp h).2.2 x hx e (by simp)
    rw [List.foldl_cons, sortInsert_of_all_le e acc hall]
    have h2 : ((acc ++ [e]) ++ es).Pairwise (fun a b => entryLe a b = true) := by
      rw [List.append_assoc]
      exact h
    rw [ih (acc ++ [e]) h2]
    simp

theorem sortEntries_of_pairwise (es : List FieldMap)
    (h : es.Pairwise (fun a b => entryLe a b = true)) : sortEntries es = es := by
  have := foldl_sortInsert_of_sorted es [] (by simpa using h)
  simpa [sortEntries] using this

/-! ### Round-trip assembly -/

theorem goodKey_not_reserved_raw {rm : List String} {k : String}
    (h : goodKey rm k = true) :
    (k == "entry_type") = false ∧ (k == "label") = false := by
  rw [goodKey] at h
  simp only [Bool.and_eq_true, Bool.not_eq_true'] at h
  exact ⟨h.1.1.2, h.1.2⟩

theorem nodup_fields {t l : String} {fs : FieldMap}
    (hnd : (((("entry_type", t) : String × String) :: ("label", l) :: fs).map Prod.fst).Nodup) :
    (fs.map Prod.fst).Nodup := by
  rw [List.map_cons, List.map_cons, List.nodup_cons, List.nodup_cons] at hnd
  exact hnd.2.2

theorem mapOpt_group_blocks (rm : List String) (es : List FieldMap)
    (hg : ∀ e ∈ es, goodEntry rm e = true ∧ (e.map Prod.fst).Nodup) :
    mapOpt (group_entries rm) (es.map entryRecOf) = some es := by
  induction es with
  | nil => rfl
  | cons e es ih =>
    obtain ⟨hge, hnd⟩ := hg e (by simp)
    obtain ⟨t, l, fs, rfl, ht, hl, hfs⟩ := goodEntry_shape hge
    rw [List.map_cons, mapOpt,
      show entryRecOf (("entry_type", t) :: ("label", l) :: fs)
        = entryRecLines t l fs from rfl,
      show entryRecLines t l fs
        = ("@" ++ t ++ "\x7B" ++ l ++ entrySep fs)
          :: (renderFieldLines fs ++ ("\x7D\n" :: [])) from by
        rw [entryRecLines]
        simp,
      group_entries_record rm t l fs [] ht hl hfs (nodup_fields hnd),
      ih (fun x hx => hg x (by simp [hx]))]

theorem mapOpt_dump_blocks (rm : List String) (es : List FieldMap)
    (hg : ∀ e ∈ es, goodEntry rm e = true) :
    mapOpt dump_entry es = some (es.map entryOutOf) := by
  induction es with
  | nil => rfl
  | cons e es ih =>
    obtain ⟨t, l, fs, rfl, ht, hl, hfs⟩ := goodEntry_shape (hg e (by simp))
    rw [mapOpt,
      dump_entry_shape t l fs
        (fun p hp => goodKey_not_reserved_raw (goodFields_mem hfs p hp).1)
        (fun p hp => goodVal_rstrip (goodFields_mem hfs p hp).2)
        (goodLabel_rstrip hl),
      ih (fun x hx => hg x (by simp [hx]))]
    rfl

theorem splitLines_blocks (rm : List String) (es : List FieldMap)
    (hg : ∀ e ∈ es, goodEntry rm e = true) :
    splitLines (concatAll ((es.map entryOutOf).flatten)) = (es.map entryPhysOf).flatten := by
  induction es with
  | nil => rfl
  | cons e es ih =>
    obtain ⟨t, l, fs, rfl, ht, hl, hfs⟩ := goodEntry_shape (hg e (by simp))
    rw [List.map_cons, List.flatten_cons,
      show entryOutOf (("entry_type", t) :: ("label", l) :: fs)
        = entryOutLines t l fs from rfl,
      splitLines_entryOut rm t l fs _ ht hl hfs,
      ih (fun x hx => hg x (by simp [hx]))]
    rfl

theorem pipelineEntries_of_blocks (rm : List String) (sortMode : Bool)
    (es : List FieldMap)
    (hg : ∀ e ∈ es, goodEntry rm e = true ∧ (e.map Prod.fst).Nodup)
    (hsorted : sortMode = true → es.Pairwise (fun a b => entryLe a b = true)) :
    pipelineEntries rm sortMode ((es.map entryPhysOf).flatten) = some es := by
  rw [pipelineEntries, scanAll_blocks rm es (fun e he => (hg e he).1),
    mapOpt_group_blocks rm es hg]
  cases sortMode with
  | false => rfl
  | true =>
    dsimp only
    rw [sortEntries_of_pairwise es (hsorted rfl)]
    rfl

/-! ## C5: round trip -/

/-- C5 counterexample: a well-formed record with a two-line field value —
decomposition joins the value as `"{p q},"` with a trailing comma; after
serialization the re-decomposed map strips that comma, so it differs from
the first field map. -/
theorem C5_counterexample :
    group_entries [] ["@a\x7Bl,\n", "x = \x7Bp\n", "q\x7D,\n", "y = 1\n", "\x7D\n"]
      = some [("entry_type", "a"), ("label", "l"), ("x", "\x7Bp q\x7D,"), ("y", "1")] ∧
    (dump_entry [("entry_type", "a"), ("label", "l"), ("x", "\x7Bp q\x7D,"), ("y", "1")]).bind
        (fun out => group_entries [] (splitLines (concatAll out)))
      ≠ some [("entry_type", "a"), ("label", "l"), ("x", "\x7Bp q\x7D,"), ("y", "1")] :=
  ⟨by decide, by decide⟩

/-- C5 (amended): for a field map produced by decomposing a record with the
empty removal set, if the map is well behaved — reserved keys first, keys
free of whitespace/`=`/braces, values with no leading whitespace, no
trailing comma or newline, no newline and balanced braces (all guaranteed
for single-line field values; a multi-line value may end in a comma and
break this) and no duplicate keys — then serializing it and decomposing the
serialized text again yields exactly the same field map (in particular the
same field set and field order). -/
theorem C5_roundtrip_amended (rec : List String) (d : FieldMap)
    (h : group_entries [] rec = some d)
    (hg : goodEntry [] d = true)
    (hnd : (d.map Prod.fst).Nodup) :
    ∃ out, dump_entry d = some out ∧
      group_entries [] (splitLines (concatAll out)) = some d := by
  obtain ⟨t, l, fs, rfl, ht, hl, hfs⟩ := goodEntry_shape hg
  refine ⟨entryOutLines t l fs, ?_, ?_⟩
  · exact dump_entry_shape t l fs
      (fun p hp => goodKey_not_reserved_raw (goodFields_mem hfs p hp).1)
      (fun p hp => goodVal_rstrip (goodFields_mem hfs p hp).2)
      (goodLabel_rstrip hl)
  · have hsplit : splitLines (concatAll (entryOutLines t l fs)) = entryPhysLines t l fs := by
      have hx := splitLines_entryOut [] t l fs [] ht hl hfs
      rw [splitLines_empty] at hx
      simpa using hx
    rw [hsplit,
      show entryPhysLines t l fs
        = ("@" ++ t ++ "\x7B" ++ l ++ entrySep fs)
          :: (renderFieldLines fs ++ ("\x7D\n" :: ["\n"])) from by
        rw [entryPhysLines]
        simp]
    exact group_entries_record [] t l fs ["\n"] ht hl hfs (nodup_fields hnd)

/-- C5 witness: the amended round trip discharged on a concrete two-field
record. -/
theorem C5_roundtrip_amended_witness :
    ∃ out, dump_entry
        [("entry_type", "a"), ("label", "l"), ("x", "\x7BDoe\x7D"), ("y", "1")]
      = some out ∧
      group_entries [] (splitLines (concatAll out))
        = some [("entry_type", "a"), ("label", "l"), ("x", "\x7BDoe\x7D"), ("y", "1")] :=
  C5_roundtrip_amended ["@a\x7Bl,\n", "x = \x7BDoe\x7D,\n", "y = 1\n", "\x7D\n"]
    [("entry_type", "a"), ("label", "l"), ("x", "\x7BDoe\x7D"), ("y", "1")]
    (by decide) (by decide) (by decide)

/-! ## C6: idempotence -/

/-- C6 counterexample: on a well-formed input containing a two-line field
value followed by another field, the first run emits `x = {p q},,` (the
joined value kept its comma) while the second run strips one comma — the
two outputs differ, so the filter is not idempotent on this input. -/
theorem C6_counterexample :
    (runText defaultRemoveFields true "@a\x7Bl,\n x = \x7Bp\n q\x7D,\n y = 1\n\x7D\n").bind
        (runText defaultRemoveFields true)
      ≠ runText defaultRemoveFields true "@a\x7Bl,\n x = \x7Bp\n q\x7D,\n y = 1\n\x7D\n" := by
  decide

/-- C6 (amended): the filter is idempotent on every input whose decomposed
entries are well behaved (no value carrying a trailing comma — in
particular every input whose field values are single physical lines): in
either mode, running the filter again on the first run's output reproduces
that output textually. -/
theorem C6_idempotent_amended (rm : List String) (sortMode : Bool) (ls : List String)
    (es : List FieldMap) (out1 : String)
    (hp : pipelineEntries rm sortMode ls = some es)
    (hg : ∀ e ∈ es, goodEntry rm e = true ∧ (e.map Prod.fst).Nodup)
    (h1 : runLines rm sortMode ls = some out1) :
    runText rm sortMode out1 = some out1 := by
  rw [runLines, hp] at h1
  dsimp only at h1
  rw [mapOpt_dump_blocks rm es (fun e he => (hg e he).1)] at h1
  dsimp only at h1
  injection h1 with h1
  subst h1
  have hsorted : sortMode = true → es.Pairwise (fun a b => entryLe a b = true) := by
    intro hs
    subst hs
    rw [pipelineEntries] at hp
    cases hm : mapOpt (group_entries rm) (scanAll ls) with
    | none => rw [hm] at hp; cases hp
    | some es0 =>
      rw [hm] at hp
      simp only [if_true] at hp
      injection hp with hp
      subst hp
      exact sortEntries_pairwise es0
  rw [runText, splitLines_blocks rm es (fun e he => (hg e he).1), runLines,
    pipelineEntries_of_blocks rm sortMode es hg hsorted]
  dsimp only
  rw [mapOpt_dump_blocks rm es (fun e he => (hg e he).1)]

/-- C6 witness: idempotence discharged on a concrete single-record stream. -/
theorem C6_idempotent_amended_witness :
    runText defaultRemoveFields true "@a\x7Bl,\nx = 1\n\x7D\n\n"
      = some "@a\x7Bl,\nx = 1\n\x7D\n\n" :=
  C6_idempotent_amended defaultRemoveFields true ["@a\x7Bl,\n", "x = 1\n", "\x7D\n"]
    [[("entry_type", "a"), ("label", "l"), ("x", "1")]] "@a\x7Bl,\nx = 1\n\x7D\n\n"
    (by decide) (by decide) (by decide)

/-! ## C10: overwrite of the synthesized reserved entries -/

theorem groupLoop_label_step (v : String) (rest : List String) (tv lv : String)
    (hv : goodVal v = true) :
    groupLoop [] (("label = " ++ v ++ ",\n") :: rest)
        [("entry_type", tv), ("label", lv)] 1 false ""
      = groupLoop [] rest [("entry_type", tv), ("label", v)] 1 false "label" := by
  have hb : isBlank ("label = " ++ v ++ ",\n") = false := isBlank_field_line "label" v ",\n"
  have hdelta : braceDelta ("label = " ++ v ++ ",\n") = 0 :=
    braceDelta_field_line "label" v ",\n" (by decide) (by decide)
      (goodVal_brace hv) (Or.inl rfl)
  have hsp : splitOnce '=' ("label = " ++ v ++ ",\n")
      = some (⟨"label".data ++ [' ']⟩, ⟨' ' :: (v.data ++ (",\n").data)⟩) :=
    splitOnce_field_line "label" v ",\n" (by decide)
  have hkey : pyStrip ⟨"label".data ++ [' ']⟩ = "label" := by decide
  have hval : rstripCommaNl (pyLstrip ⟨' ' :: (v.data ++ (",\n").data)⟩) = v :=
    val_extract v ",\n" (goodVal_lstrip hv) (goodVal_rstrip hv) (Or.inl rfl)
  rw [groupLoop, if_neg (by simp [hb]), if_pos (by decide : ((1 : Int) == 1) = true),
    if_neg (by rw [hdelta]; decide), hsp]
  dsimp only
  rw [hkey, hval, if_neg (by decide),
    show odInsert [("entry_type", tv), ("label", lv)] "label" v
      = [("entry_type", tv), ("label", v)] from rfl,
    hdelta]
  norm_num

/-- C10: a top-level field literally named `label` (or `entry_type`), not in
the removal set, overwrites the value of the synthesized reserved entry in place:
the reserved key keeps its first/second position (here `label` stays before
`author`), no separate field entry appears, and the serialized label
(or type) of the record is silently replaced by the value of that field. -/
theorem C10_reserved_overwrite (v : String) (hv : goodVal v = true) :
    group_entries []
        ["@article\x7Borig,\n", "label = " ++ v ++ ",\n", "author = A\n", "\x7D\n"]
      = some [("entry_type", "article"), ("label", v), ("author", "A")] ∧
    dump_entry [("entry_type", "article"), ("label", v), ("author", "A")]
      = some ["@article\x7B" ++ v ++ ",\n", "author = A\n", "\x7D\n\n"] ∧
    group_entries [] ["@article\x7Borig,\n", "entry_type = misc,\n", "\x7D\n"]
      = some [("entry_type", "misc"), ("label", "orig")] ∧
    dump_entry [("entry_type", "misc"), ("label", "orig")]
      = some ["@misc\x7Borig\n", "\x7D\n\n"] := by
  refine ⟨?_, ?_, by decide, by decide⟩
  · rw [group_entries,
      show splitOnce '\x7B' "@article\x7Borig,\n" = some ("@article", "orig,\n") from by
        decide]
    dsimp only
    rw [show (⟨(pyStrip "@article").data.drop 1⟩ : String) = "article" from by decide,
      show rstripCommaNl (pyLstrip "orig,\n") = "orig" from by decide,
      groupLoop_label_step v _ "article" "orig" hv]
    have hstep : groupLoop [] ("author = A\n" :: ["\x7D\n"])
          [("entry_type", "article"), ("label", v)] 1 false "label"
        = groupLoop [] ["\x7D\n"]
            ([("entry_type", "article"), ("label", v)] ++ [("author", "A")]) 1 false "author" :=
      groupLoop_field_step [] "author" "A" "\n" ["\x7D\n"]
        [("entry_type", "article"), ("label", v)] "label"
        (by decide) (by decide) (Or.inr rfl) rfl
    rw [hstep, groupLoop_close]
    rfl
  · rw [dump_entry_shape "article" v [("author", "A")] (by decide)
      (by decide) (goodVal_rstrip hv)]
    rfl

/-- C10 witness: the overwrite behavior at value `OTHER`. -/
theorem C10_reserved_overwrite_witness :
    group_entries []
        ["@article\x7Borig,\n", "label = " ++ "OTHER" ++ ",\n", "author = A\n", "\x7D\n"]
      = some [("entry_type", "article"), ("label", "OTHER"), ("author", "A")] ∧
    dump_entry [("entry_type", "article"), ("label", "OTHER"), ("author", "A")]
      = some ["@article\x7B" ++ "OTHER" ++ ",\n", "author = A\n", "\x7D\n\n"] ∧
    group_entries [] ["@article\x7Borig,\n", "entry_type = misc,\n", "\x7D\n"]
      = some [("entry_type", "misc"), ("label", "orig")] ∧
    dump_entry [("entry_type", "misc"), ("label", "orig")]
      = some ["@misc\x7Borig\n", "\x7D\n\n"] :=
  C10_reserved_overwrite "OTHER" (by decide)

end Bibstrip
